import Mathlib

/-!
Shallow embedding of the urban-air-quality-api pipeline
(controllers/cities.controller, services/auth.service,
services/pollution.service) and proofs about its normalization,
description-resolution, aggregation, authentication and sorting logic.

Strings are modelled as Lean `String`s (lists of code points); the
JavaScript string primitives used by the code (`trim`, `toLowerCase`,
`toUpperCase`, `includes`, `split(' ')`, `join(' ')`, the two regex
replaces, `parseFloat`, `parseInt`) are embedded below.  Case mapping is
the ASCII simple case mapping (exact for the repository's data; JS full
Unicode case mapping agrees on ASCII).  Numbers produced by `parseFloat`
are modelled as exact rationals plus signed infinities; `NaN` is the
`none` of an `Option`.
-/

namespace UrbanAir

/-- The JavaScript `\s` character class (also used by `String.prototype.trim`),
restricted to the code points that can appear in this repository's data:
ASCII whitespace, NBSP and the Unicode line/paragraph separators. -/
def isJsWs (c : Char) : Bool :=
  c = ' ' || c = '\t' || c = '\n' || c = '\r' || c = '\x0b' || c = '\x0c' ||
  c = '\u00A0' || c = '\u2028' || c = '\u2029'

/-- JavaScript line terminators: the characters a regex `.` does not match. -/
def isLineTerm (c : Char) : Bool :=
  c = '\n' || c = '\r' || c = '\u2028' || c = '\u2029'

/-- `String.prototype.trim` on a character list. -/
def trimChars (l : List Char) : List Char :=
  ((l.dropWhile isJsWs).reverse.dropWhile isJsWs).reverse

/-- `String.prototype.trim`. -/
def jsTrim (s : String) : String := ⟨trimChars s.data⟩

/-- ASCII lower-case mapping of one character (model of JS `toLowerCase`). -/
def jsToLowerChar (c : Char) : Char :=
  if 65 ≤ c.toNat ∧ c.toNat ≤ 90 then Char.ofNat (c.toNat + 32) else c

/-- ASCII upper-case mapping of one character (model of JS `toUpperCase`). -/
def jsToUpperChar (c : Char) : Char :=
  if 97 ≤ c.toNat ∧ c.toNat ≤ 122 then Char.ofNat (c.toNat - 32) else c

/-- `String.prototype.toLowerCase` (ASCII model). -/
def jsToLower (s : String) : String := ⟨s.data.map jsToLowerChar⟩

/-- `String.prototype.toUpperCase` (ASCII model). -/
def jsToUpper (s : String) : String := ⟨s.data.map jsToUpperChar⟩

/-- Does `pat` occur at the head of `l`? -/
def headMatches : List Char → List Char → Bool
  | [], _ => true
  | _ :: _, [] => false
  | a :: as, b :: bs => a == b && headMatches as bs

/-- Does `pat` occur somewhere in `l`?  (`String.prototype.includes`.) -/
def occursIn (pat : List Char) : List Char → Bool
  | [] => headMatches pat []
  | c :: rest => headMatches pat (c :: rest) || occursIn pat rest

/-- `hay.includes(needle)`. -/
def jsIncludes (hay needle : String) : Bool := occursIn needle.data hay.data

/-- Numeric value of a (already validated) decimal digit list. -/
def digitsToNat (l : List Char) : Nat :=
  l.foldl (fun acc c => acc * 10 + (c.toNat - 48)) 0

/-- A JavaScript number as produced by a successful `parseFloat`:
an exact rational or a signed infinity.  `NaN` is modelled as `Option.none`
at the use sites. -/
inductive JsNum
  | val (q : ℚ)
  | infinity (neg : Bool)
deriving DecidableEq, Repr

/-- Is the number strictly negative (the `< 0` test of the code)? -/
def jsNumIsNeg : JsNum → Bool
  | .val q => decide (q < 0)
  | .infinity neg => neg

/-- Exponent part of a float literal: the characters after `e`/`E`.
A sign is allowed; if no digit follows, JS ignores the exponent (0). -/
def parseSignedDigits (l : List Char) : Int :=
  match l with
  | '-' :: r => if (r.takeWhile Char.isDigit).isEmpty then 0
                else -(digitsToNat (r.takeWhile Char.isDigit) : Int)
  | '+' :: r => if (r.takeWhile Char.isDigit).isEmpty then 0
                else (digitsToNat (r.takeWhile Char.isDigit) : Int)
  | r => if (r.takeWhile Char.isDigit).isEmpty then 0
         else (digitsToNat (r.takeWhile Char.isDigit) : Int)

/-- The exponent multiplier introduced by `e`/`E`, if present. -/
def parseExpPart : List Char → Int
  | 'e' :: r => parseSignedDigits r
  | 'E' :: r => parseSignedDigits r
  | _ => 0

/-- JavaScript `parseFloat` (decimal grammar): leading whitespace skipped,
optional sign, `Infinity` literal or digits with optional fraction and
optional exponent, longest valid prefix; `none` models `NaN`. -/
def parseFloatJs (s : String) : Option JsNum :=
  let l := s.data.dropWhile isJsWs
  let signSplit : Bool × List Char :=
    match l with
    | '-' :: r => (true, r)
    | '+' :: r => (false, r)
    | r => (false, r)
  let neg := signSplit.1
  let l1 := signSplit.2
  if headMatches "Infinity".data l1 then some (.infinity neg)
  else
    let ip := l1.takeWhile Char.isDigit
    let l2 := l1.drop ip.length
    let fracSplit : List Char × List Char :=
      match l2 with
      | '.' :: r => (r.takeWhile Char.isDigit, r.drop (r.takeWhile Char.isDigit).length)
      | r => ([], r)
    let fp := fracSplit.1
    let l3 := fracSplit.2
    if ip.isEmpty && fp.isEmpty then none
    else
      let mantNum : Int := (digitsToNat ip * 10 ^ fp.length + digitsToNat fp : Nat)
      let signedMant : Int := if neg then -mantNum else mantNum
      let ex : Int := parseExpPart l3
      let v : ℚ :=
        if 0 ≤ ex then mkRat (signedMant * ((10 ^ ex.toNat : Nat) : Int)) (10 ^ fp.length)
        else mkRat signedMant (10 ^ fp.length * 10 ^ (-ex).toNat)
      some (.val v)

/-- JavaScript `parseInt(s, 10)`: leading whitespace skipped, optional
sign, longest digit prefix; `none` models `NaN`. -/
def parseIntJs (s : String) : Option Int :=
  let l := s.data.dropWhile isJsWs
  let signSplit : Bool × List Char :=
    match l with
    | '-' :: r => (true, r)
    | '+' :: r => (false, r)
    | r => (false, r)
  let ds := signSplit.2.takeWhile Char.isDigit
  if ds.isEmpty then none
  else some (if signSplit.1 then -(digitsToNat ds : Int) else (digitsToNat ds : Int))

/-! ### The global regex replace `replace(/\s*\(.+\)\s*/g, '')`

A match at a position consumes greedy leading `\s*`, `(`, a non-empty run
of non-line-terminator characters up to the last `)` inside that run
(greedy `.+` with backtracking), that `)`, and greedy trailing `\s*`.
The global replace scans left to right, removing each match and resuming
after it.  The recursion is expressed with fuel (bounded by the list
length) so that the function reduces definitionally. -/

/-- Index of the last `)` in `l`, if any. -/
def lastCloseIdx : List Char → Option Nat
  | [] => none
  | c :: rest =>
    match lastCloseIdx rest with
    | some k => some (k + 1)
    | none => if c = ')' then some 0 else none

/-- Try to match `\s*\(.+\)\s*` at the head of `l`; on success return the
remainder of `l` after the match. -/
def tryMatchAt (l : List Char) : Option (List Char) :=
  match l.dropWhile isJsWs with
  | '(' :: rest =>
    let run := rest.takeWhile (fun c => !isLineTerm c)
    match lastCloseIdx run with
    | some k => if 1 ≤ k then some ((rest.drop (k + 1)).dropWhile isJsWs) else none
    | none => none
  | _ => none

/-- One fuel step per scanned position; fuel `l.length` always suffices. -/
def stripParensAux : Nat → List Char → List Char
  | 0, l => l
  | fuel + 1, l =>
    match tryMatchAt l with
    | some rem => stripParensAux fuel rem
    | none =>
      match l with
      | [] => []
      | c :: cs => c :: stripParensAux fuel cs

/-- `s.replace(/\s*\(.+\)\s*/g, '')` on a character list. -/
def stripParens (l : List Char) : List Char := stripParensAux l.length l

/-- JS `split(' ')` (single-space separator, empty fields kept). -/
def splitSp : List Char → List (List Char)
  | [] => [[]]
  | c :: rest =>
    match splitSp rest with
    | [] => [[]]
    | w :: ws => if c = ' ' then [] :: w :: ws else (c :: w) :: ws

/-- JS `join(' ')`. -/
def joinSp : List (List Char) → List Char
  | [] => []
  | [w] => w
  | w :: ws => w ++ ' ' :: joinSp ws

/-- One word of the title-casing step:
`word.charAt(0).toUpperCase() + word.slice(1).toLowerCase()` (`''` for
the empty word). -/
def titleCaseWord : List Char → List Char
  | [] => []
  | c :: cs => jsToUpperChar c :: cs.map jsToLowerChar

/-- `s.replace(/\s+/g, ' ')`: every maximal whitespace run becomes one space. -/
def collapseWs : List Char → List Char
  | [] => []
  | [c] => if isJsWs c then [' '] else [c]
  | c :: d :: rest =>
    if isJsWs c then
      if isJsWs d then collapseWs (d :: rest)
      else ' ' :: collapseWs (d :: rest)
    else c :: collapseWs (d :: rest)

/-- `/^[0-9]+$/.test s`. -/
def isAllDigits (s : String) : Bool :=
  !s.data.isEmpty && s.data.all Char.isDigit

/-- The three-step `lookupName` derivation of `normalizeCityData`:
strip parenthesized segments and trim; per-word title casing (split on a
single space, join on a single space) and trim; collapse whitespace runs
and trim. -/
def deriveLookupName (originalName : String) : String :=
  let s1 := jsTrim ⟨stripParens originalName.data⟩
  let s2 := jsTrim ⟨joinSp ((splitSp s1.data).map titleCaseWord)⟩
  jsTrim ⟨collapseWs s2.data⟩

/-- A raw upstream city record.  A field that is absent or not a string is
`none` (the code's `typeof x !== 'string'` checks treat both alike; the
`pollution` field is passed through `parseFloat`, which stringifies
non-string values — a missing `pollution` parses to `NaN`, i.e. `none`). -/
structure RawCityRecord where
  name : Option String
  country : Option String
  pollution : Option String
deriving DecidableEq, Repr

/-- The validated record `normalizeCityData` produces. -/
structure NormalizedCity where
  originalName : String
  lookupName : String
  country : String
  pollution : JsNum
deriving DecidableEq, Repr

/-- `normalizeCityData` of `cities.controller`: validation plus
`lookupName` derivation; `none` signals a silently dropped record. -/
def normalizeCityData (data : RawCityRecord) : Option NormalizedCity :=
  match data.name with
  | none => none
  | some nm =>
    if jsTrim nm = "" then none
    else
      match data.country with
      | none => none
      | some ct =>
        if jsTrim ct = "" then none
        else
          match data.pollution with
          | none => none
          | some p =>
            match parseFloatJs p with
            | none => none
            | some v =>
              if jsNumIsNeg v then none
              else
                let originalName := jsTrim nm
                let lookupName := deriveLookupName originalName
                if lookupName = "" ∨ isAllDigits lookupName ∨ lookupName.length ≤ 1 then none
                else some ⟨originalName, lookupName, jsTrim ct, v⟩

/-! ### Description resolver (`getWikipediaDescription` of the controller)

The external lookup service and the shared cache are modelled as oracles:
`cacheF` maps a cache key to its stored value (if any) and `fetch` maps a
query to the `{description, title}` pair `wikipediaService.fetchCityDescription`
returns (`none` models `null`).  Returning on acceptance before any `cache.set`
makes the write irrelevant to the call's own result, so the state write is
not threaded. -/

/-- The `{description, title}` pair returned by the lookup service. -/
structure WikiData where
  description : String
  title : String
deriving DecidableEq, Repr

/-- The `strongNegativeKeywords` list of `getWikipediaDescription`,
transcribed in source order (duplicates included). -/
def strongNegativeKeywords : List String :=
  ["may refer to:", "disambiguation page", "film", "album", "number", "symbol",
   "species", "river", "mountain range", "historical region", "concept", "theory",
   "organization", "company", "product", "mathematical", "scientific", "list of",
   "is a character in", "is a fictional", "is an abstract", "is a type of", "refers to",
   "is a genus of", "is a surname", "is a given name", "is a song", "is an episode",
   "is a novel by", "is a play by", "is a television series", "is a video game",
   "is a computer program", "is an acronym for", "is a chemical element", "is a unit of",
   "dictator", "tank series", "medicine", "monitoring", "political party",
   "streaming service", "election", "polling",
   "aircraft", "military", "weapon", "vehicle", "disease", "condition",
   "medical parameter", "observation of", "historical figure",
   "fictional character", "fictional place", "fictional entity", "corporate entity",
   "software", "platform", "service",
   "industrial region", "power plant", "monitoring station", "industrial zone",
   "unknown point",
   "facility", "station", "complex", "area (disambiguation)", "site (disambiguation)",
   "point (disambiguation)",
   "alpha (disambiguation)", "b (disambiguation)", "c (disambiguation)",
   "d (disambiguation)", "e (disambiguation)",
   "number (disambiguation)", "number theory", "mathematical constant",
   "mathematical concept",
   "medical condition", "medical device", "medical procedure", "medical treatment",
   "medical system",
   "military unit", "military base", "military operation", "military vehicle",
   "military aircraft",
   "political party", "political movement", "political organization",
   "political system", "political theory",
   "streaming service", "television series", "video game", "software platform",
   "software service",
   "historical event", "historical period", "historical figure", "historical site",
   "geological feature", "body of water", "mountain range", "natural feature"]

/-- The `countryNames` map: full names and adjective forms per country code. -/
def countryTermsFor (countryName : String) : List String :=
  if jsToUpper countryName = "PL" then ["Poland", "Polish"]
  else if jsToUpper countryName = "DE" then ["Germany", "German"]
  else if jsToUpper countryName = "ES" then ["Spain", "Spanish"]
  else if jsToUpper countryName = "FR" then ["France", "French"]
  else []

/-- The acceptance policy applied to a fetched `(description, title)` pair:
country relevance AND content relevance AND no strong negative keyword in
the lowercased description or title. -/
def acceptDescription (originalName lookupName countryName : String)
    (desc title : String) : Bool :=
  let lowerDesc := jsToLower desc
  let lowerTitle := jsToLower title
  let strongNeg := strongNegativeKeywords.any (fun k => jsIncludes lowerDesc k)
  let titleStrongNeg := strongNegativeKeywords.any (fun k => jsIncludes lowerTitle k)
  let lowerCountryTerms := (countryTermsFor countryName).map jsToLower
  let countryRelevant :=
    lowerCountryTerms.any (fun t => jsIncludes lowerDesc t || jsIncludes lowerTitle t) ||
    jsIncludes lowerDesc (jsToLower countryName) || jsIncludes lowerTitle (jsToLower countryName)
  let contentRelevant :=
    (jsIncludes lowerDesc (jsToLower originalName) || jsIncludes lowerTitle (jsToLower originalName)) ||
    (jsIncludes lowerDesc (jsToLower lookupName) || jsIncludes lowerTitle (jsToLower lookupName))
  countryRelevant && contentRelevant && !strongNeg && !titleStrongNeg

/-- The ordered candidate-query cascade, most specific first. -/
def searchQueries (originalName countryName lookupName : String) : List String :=
  [originalName ++ ", " ++ countryName, lookupName ++ ", " ++ countryName,
   originalName, lookupName]

/-- What one loop iteration of `getWikipediaDescription` yields for query
`q`: the truthy cached value if present, else the fetched description when
it is truthy and the acceptance policy holds, else nothing (continue). -/
def candidateOutcome (cacheF : String → Option String)
    (fetch : String → Option WikiData)
    (originalName countryName lookupName : String) (q : String) : Option String :=
  let fetched : Option String :=
    match fetch q with
    | some w =>
      if w.description != "" && acceptDescription originalName lookupName countryName
          w.description w.title then some w.description
      else none
    | none => none
  match cacheF ("wiki_" ++ q) with
  | some d => if d = "" then fetched else some d
  | none => fetched

/-- Run the cascade: the result of the first succeeding candidate together
with the list of candidates consulted (in order). -/
def resolveFirst (f : String → Option String) : List String → Option String × List String
  | [] => (none, [])
  | q :: qs =>
    match f q with
    | some d => (some d, [q])
    | none =>
      let r := resolveFirst f qs
      (r.1, q :: r.2)

/-- `getWikipediaDescription` of the controller (result only). -/
def getWikipediaDescription (cacheF : String → Option String)
    (fetch : String → Option WikiData)
    (originalName countryName lookupName : String) : Option String :=
  (resolveFirst (candidateOutcome cacheF fetch originalName countryName lookupName)
    (searchQueries originalName countryName lookupName)).1

/-- The candidates `getWikipediaDescription` consults (cache lookup and,
on a miss, lookup-service query), in order. -/
def consultedQueries (cacheF : String → Option String)
    (fetch : String → Option WikiData)
    (originalName countryName lookupName : String) : List String :=
  (resolveFirst (candidateOutcome cacheF fetch originalName countryName lookupName)
    (searchQueries originalName countryName lookupName)).2

/-! ### Pollution aggregator (`pollution.service.fetchPollutionData`)

The upstream HTTP response for each country is an oracle
`resp : String → CountryResponse`; the claims below concern a successful
aggregation call, so the authentication exchange and transport failures
are outside the model. -/

/-- Upstream per-country response: `meta.totalPages` and the optional
`results` array. -/
structure CountryResponse where
  totalPages : Nat
  results : Option (List RawCityRecord)

/-- What `fetchPollutionData` returns. -/
structure PollutionData where
  cities : List RawCityRecord
  page : Nat
  limit : Nat
  total : Nat
deriving DecidableEq, Repr

/-- `AVAILABLE_COUNTRIES` of pollution.service. -/
def AVAILABLE_COUNTRIES : List String := ["PL", "DE", "ES", "FR"]

/-- One country's fetch: skipped codes yield `([], 0)`; a response with no
`results` yields `([], meta.totalPages || 0)`; otherwise the country-tagged
records and `meta.totalPages * limit`. -/
def perCountryData (resp : String → CountryResponse) (limit : Nat)
    (country : String) : List RawCityRecord × Nat :=
  if AVAILABLE_COUNTRIES.contains country then
    match (resp country).results with
    | none => ([], (resp country).totalPages)
    | some results =>
      (results.map (fun city => { city with country := some country }),
       (resp country).totalPages * limit)
  else ([], 0)

/-- The target country set: the single uppercased requested code, else the
full predefined set. -/
def countriesToQuery : Option String → List String
  | some c => [jsToUpper c]
  | none => AVAILABLE_COUNTRIES

/-- `fetchPollutionData(countryCode, page = 1, limit = 10)`: `none` for
`page`/`limit` models an omitted argument (JS default parameter). -/
def fetchPollutionData (resp : String → CountryResponse)
    (countryCode : Option String) (page limit : Option Nat) : PollutionData :=
  let p := page.getD 1
  let l := limit.getD 10
  let perCountry := (countriesToQuery countryCode).map (perCountryData resp l)
  { cities := (perCountry.map Prod.fst).flatten
    page := p
    limit := l
    total := (perCountry.map Prod.snd).sum }

/-! ### Token cache and authenticator (`auth.service.getAuthToken`)

One call is modelled as a pure function of the cached entry, the current
time (`Date.now() / 1000`, an exact rational) and the login exchange's
outcome.  The outcome records the returned token or the thrown error's
message, the cache entry after the call, and the TTL passed to
`cache.set` when a write happened. -/

/-- The cached token entry `{token, expiresAt}` (epoch seconds). -/
structure TokenData where
  token : String
  expiresAt : ℚ
deriving DecidableEq, Repr

/-- The login exchange as seen by the `try`/`catch`: a transport error, an
HTTP error response with a status, or a 2xx body `{token, expiresIn}`
(absent fields are `none`; `expiresIn` is stringified before `parseInt`). -/
inductive LoginResponse
  | netErr
  | httpErr (status : Nat)
  | ok (token : Option String) (expiresIn : Option String)
deriving DecidableEq, Repr

/-- Result of one `getAuthToken` call. -/
structure AuthOutcome where
  result : Except String String
  cacheAfter : Option TokenData
  ttlSet : Option Int
deriving Repr

/-- The message thrown for a 401 login response. -/
def msgInvalidCredentials : String :=
  "Login failed: Invalid username or password for pollution API."

/-- The message of the generic failure rethrown by the `catch` block. -/
def msgAuthFailure : String :=
  "Failed to obtain authentication token from login API."

/-- `TOKEN_REFRESH_BUFFER` (seconds). -/
def TOKEN_REFRESH_BUFFER : Int := 60

/-- The `try` block past the cache check, with the `catch` applied: every
`Error` thrown inside the `try` carries no `response` field, so the
`catch` rethrows the generic failure for all of them; only an HTTP 401
response is rethrown as the invalid-credentials error. -/
def attemptLogin (cached : Option TokenData) (now : ℚ)
    (resp : LoginResponse) : AuthOutcome :=
  match resp with
  | .netErr => ⟨.error msgAuthFailure, cached, none⟩
  | .httpErr status =>
    if status = 401 then ⟨.error msgInvalidCredentials, cached, none⟩
    else ⟨.error msgAuthFailure, cached, none⟩
  | .ok tok exp =>
    match tok, exp with
    | some t, some e =>
      if t = "" then ⟨.error msgAuthFailure, cached, none⟩
      else
        match parseIntJs e with
        | none => ⟨.error msgAuthFailure, cached, none⟩
        | some n =>
          if n ≤ 0 then ⟨.error msgAuthFailure, cached, none⟩
          else
            let entry : TokenData := ⟨t, now + (n : ℚ)⟩
            let cacheTTL := n - TOKEN_REFRESH_BUFFER
            if cacheTTL ≤ 0 then ⟨.ok t, some entry, some 10⟩
            else ⟨.ok t, some entry, some cacheTTL⟩
    | _, _ => ⟨.error msgAuthFailure, cached, none⟩

/-- `getAuthToken`: serve a cached token that is truthy and not within the
refresh buffer of expiry; otherwise attempt a login. -/
def getAuthToken (cached : Option TokenData) (now : ℚ)
    (resp : LoginResponse) : AuthOutcome :=
  match cached with
  | some td =>
    if td.token != "" && decide (now + (TOKEN_REFRESH_BUFFER : ℚ) < td.expiresAt) then
      ⟨.ok td.token, cached, none⟩
    else attemptLogin cached now resp
  | none => attemptLogin cached now resp

/-! ### Result assembler: the sort of `getPollutedCities` -/

/-- One enriched output record. -/
structure EnrichedCity where
  name : String
  country : String
  pollution : ℚ
  description : String
deriving DecidableEq, Repr

/-- Code-point lexicographic `≤` on character lists: the model of
`a.name.localeCompare(b.name) ≤ 0`.  (`localeCompare` collation is
environment-dependent; the code-point order is exact for the ASCII
same-case names the claims concern.) -/
def lexLeChars : List Char → List Char → Bool
  | [], _ => true
  | _ :: _, [] => false
  | a :: as, b :: bs => if a = b then lexLeChars as bs else decide (a.toNat < b.toNat)

/-- `a` may come no later than `b` under the comparator
`(a, b) => b.pollution - a.pollution || a.name.localeCompare(b.name)`:
strictly larger pollution first, ties by ascending name. -/
def cityBefore (a b : EnrichedCity) : Prop :=
  b.pollution < a.pollution ∨
    (a.pollution = b.pollution ∧ lexLeChars a.name.data b.name.data = true)

instance : DecidableRel cityBefore := fun a b => by
  unfold cityBefore; infer_instance

/-- The `citiesWithDescriptions.sort(...)` step of `getPollutedCities`
(`Array.prototype.sort` is stable, as is insertion sort, so this is the
exact output order for the total preorder above). -/
def sortCitiesByPollution (cities : List EnrichedCity) : List EnrichedCity :=
  cities.insertionSort cityBefore

/-! ### Auxiliary definitions used to state and instantiate the claims -/

/-- A response oracle whose every country reports 5 total pages and no
`results` array. -/
def respNoResults : String → CountryResponse := fun _ => ⟨5, none⟩

/-- The cached entry does not satisfy the serve-from-cache test: it is
absent, falsy, or within the refresh buffer of expiry. -/
def cacheMiss (cached : Option TokenData) (now : ℚ) : Prop :=
  ∀ td, cached = some td →
    td.token = "" ∨ td.expiresAt ≤ now + (TOKEN_REFRESH_BUFFER : ℚ)

/-- The empty description cache. -/
def cacheEmpty : String → Option String := fun _ => none

/-- A lookup oracle that answers only the query `"Warsaw, PL"`, with an
empty extract whose title names both the city and the country. -/
def fetchEmptyDesc : String → Option WikiData :=
  fun q => if q = "Warsaw, PL" then some ⟨"", "warsaw poland"⟩ else none

/-- "name is missing or blank" (the `typeof x !== 'string'` and
`trim() === ''` tests). -/
def isBlankOpt : Option String → Bool
  | none => true
  | some s => jsTrim s == ""

/-- "the pollution field parses to a non-negative float". -/
def parsesNonNegative : Option String → Bool
  | none => false
  | some p =>
    match parseFloatJs p with
    | none => false
    | some v => !jsNumIsNeg v

/-- "the derived lookupName is empty, all digits, or of length at most 1". -/
def lookupInvalid (lk : String) : Bool :=
  lk == "" || isAllDigits lk || decide (lk.length ≤ 1)

/-- Every whitespace character of `l` is a plain space (the hypothesis of
the amended idempotence claim: the raw name contains no tabs, newlines or
other exotic whitespace). -/
def spaceOnly (l : List Char) : Prop := ∀ c ∈ l, isJsWs c = true → c = ' '

instance (l : List Char) : Decidable (spaceOnly l) :=
  inferInstanceAs (Decidable (∀ c ∈ l, isJsWs c = true → c = ' '))

/-- Streaming form of the split/title-case/join step: upper-case at a word
start (list start or right after a space), lower-case elsewhere. -/
def tcStream (atStart : Bool) : List Char → List Char
  | [] => []
  | c :: rest =>
    if c = ' ' then ' ' :: tcStream true rest
    else (if atStart then jsToUpperChar c else jsToLowerChar c) :: tcStream false rest

/-- The word-start state after processing a chunk. -/
def tcState (b : Bool) : List Char → Bool
  | [] => b
  | c :: rest => tcState (if c = ' ' then true else false) rest

/-- Is there a `)` strictly after the head? -/
def tailHasClose : List Char → Bool
  | [] => false
  | _ :: t => t.contains ')'

/-- Is there a `(` with a `)` at distance at least two after it — that is,
a position at which the paren-stripping regex could match on a
newline-free list? -/
def hasViable : List Char → Bool
  | [] => false
  | c :: rest => (c == '(' && tailHasClose rest) || hasViable rest

/-- Trailing-whitespace removal (the second half of `trimChars`). -/
def dropTrail (l : List Char) : List Char := (l.reverse.dropWhile isJsWs).reverse

/-- The whole lookupName pipeline on a character list. -/
def deriveList (s : List Char) : List Char :=
  trimChars (collapseWs (trimChars
    (joinSp ((splitSp (trimChars (stripParens s))).map titleCaseWord))))

/-- The tail appended by `joinSp` after the first word. -/
def joinSpTail : List (List Char) → List Char
  | [] => []
  | ws => ' ' :: joinSp ws

/-- No two adjacent whitespace characters. -/
def noAdjWs (l : List Char) : Prop :=
  List.Chain' (fun a b => isJsWs a = true → isJsWs b = false) l

/-! ## Claims about the pollution aggregator (C6, C7) -/

/-- C6 counterexample: querying country `PL` with `limit` defaulting to 10
against a response with `totalPages = 5` and no `results` array yields
`total = 5`, not `totalPages * limit = 50`: a queried country's
contribution is not always `totalPages * limit`. -/
theorem c6_total_counterexample :
    (fetchPollutionData respNoResults (some "PL") none none).total = 5 ∧
    (fetchPollutionData respNoResults (some "PL") none none).limit = 10 ∧
    (5 : Nat) ≠ 5 * 10 := by
  refine ⟨by decide, by decide, by decide⟩

/-- C6 (amended): the aggregate `total` is the sum of the per-country
contributions over the queried countries, where a supported country with a
`results` array contributes `totalPages * limit`, a supported country
without one contributes `totalPages`, and an unsupported code contributes
0. -/
theorem c6_total_formula (resp : String → CountryResponse)
    (countryCode : Option String) (page limit : Option Nat) :
    (fetchPollutionData resp countryCode page limit).total =
      ((countriesToQuery countryCode).map
        (fun c => (perCountryData resp (limit.getD 10) c).2)).sum ∧
    (∀ c, AVAILABLE_COUNTRIES.contains c = true → (resp c).results ≠ none →
      (perCountryData resp (limit.getD 10) c).2 = (resp c).totalPages * limit.getD 10) ∧
    (∀ c, AVAILABLE_COUNTRIES.contains c = true → (resp c).results = none →
      (perCountryData resp (limit.getD 10) c).2 = (resp c).totalPages) ∧
    (∀ c, AVAILABLE_COUNTRIES.contains c = false →
      (perCountryData resp (limit.getD 10) c).2 = 0) := by
  refine ⟨?_, ?_, ?_, ?_⟩
  · simp [fetchPollutionData, List.map_map, Function.comp_def]
  · intro c hc hr
    have hm : c ∈ AVAILABLE_COUNTRIES := by simpa using hc
    cases hres : (resp c).results with
    | none => exact absurd hres hr
    | some rs => simp [perCountryData, hm, hres]
  · intro c hc hr
    have hm : c ∈ AVAILABLE_COUNTRIES := by simpa using hc
    simp [perCountryData, hm, hr]
  · intro c hc
    have hm : c ∉ AVAILABLE_COUNTRIES := by simpa using hc
    simp [perCountryData, hm]

/-- C7 counterexample: with the page and limit arguments omitted, the
returned `limit` is 10, not 1. -/
theorem c7_default_limit_counterexample :
    (fetchPollutionData respNoResults none none none).limit = 10 ∧
    (10 : Nat) ≠ 1 := by
  refine ⟨by decide, by decide⟩

/-- C7 (amended): when the page and limit arguments are omitted,
`fetchPollutionData` defaults `page` to 1 and `limit` to 10. -/
theorem c7_defaults (resp : String → CountryResponse) (countryCode : Option String) :
    (fetchPollutionData resp countryCode none none).page = 1 ∧
    (fetchPollutionData resp countryCode none none).limit = 10 :=
  ⟨rfl, rfl⟩

/-! ## Claims about the authenticator (C8, C9, C10) -/

/-- On a cache miss, `getAuthToken` performs the login attempt. -/
theorem getAuthToken_of_miss {cached : Option TokenData} {now : ℚ}
    (resp : LoginResponse) (hmiss : cacheMiss cached now) :
    getAuthToken cached now resp = attemptLogin cached now resp := by
  cases cached with
  | none => rfl
  | some td =>
    rcases hmiss td rfl with h | h
    · simp [getAuthToken, h]
    · simp [getAuthToken, not_lt.mpr h]

/-- C8 (confirmed): on every successful login the token is cached with
`expiresAt = now + expiresIn`, and the cache TTL is
`expiresIn - TOKEN_REFRESH_BUFFER`, falling back to the fixed minimum of
10 seconds whenever that difference is non-positive. -/
theorem c8_token_cache_ttl (cached : Option TokenData) (now : ℚ) (t e : String)
    (n : Int) (hmiss : cacheMiss cached now) (ht : t ≠ "")
    (he : parseIntJs e = some n) (hn : 0 < n) :
    (getAuthToken cached now (.ok (some t) (some e))).ttlSet =
      some (if n - TOKEN_REFRESH_BUFFER ≤ 0 then 10 else n - TOKEN_REFRESH_BUFFER) ∧
    (getAuthToken cached now (.ok (some t) (some e))).cacheAfter =
      some ⟨t, now + (n : ℚ)⟩ ∧
    (getAuthToken cached now (.ok (some t) (some e))).result = .ok t := by
  rw [getAuthToken_of_miss _ hmiss]
  simp only [attemptLogin, he, if_neg ht, if_neg (not_le.mpr hn)]
  by_cases httl : n - TOKEN_REFRESH_BUFFER ≤ 0 <;> simp [httl]

/-- Witness for C8 at the spec's own example: `expiresIn = 30` computes
TTL `30 - 60 ≤ 0` and falls back to the minimum TTL of 10 seconds. -/
theorem c8_token_cache_ttl_witness :
    (getAuthToken none 0 (.ok (some "tok") (some "30"))).ttlSet =
      some (if (30 : Int) - TOKEN_REFRESH_BUFFER ≤ 0 then 10
            else 30 - TOKEN_REFRESH_BUFFER) ∧
    (getAuthToken none 0 (.ok (some "tok") (some "30"))).cacheAfter =
      some ⟨"tok", 0 + (30 : ℚ)⟩ ∧
    (getAuthToken none 0 (.ok (some "tok") (some "30"))).result = .ok "tok" :=
  c8_token_cache_ttl none 0 "tok" "30" 30 (fun td h => by cases h)
    (by decide) (by decide) (by decide)

/-- C9 counterexample: a malformed login response (missing `expiresIn`)
fails with exactly the same generic error as a plain network failure —
the thrown malformed-response `Error` is caught by the `catch` block,
which finds no `response` field on it and rethrows the generic failure.
So the malformed-response failure is not distinguishable from other
failures. -/
theorem c9_malformed_counterexample :
    (getAuthToken none 0 (.ok (some "tok") none)).result = .error msgAuthFailure ∧
    (getAuthToken none 0 .netErr).result = .error msgAuthFailure ∧
    msgAuthFailure ≠ msgInvalidCredentials := by
  refine ⟨rfl, rfl, by decide⟩

/-- C9 (amended): on a cache miss, an unauthorized (401) login response
fails with the invalid-credentials error; a login response whose token or
expiry is missing, empty, non-numeric or non-positive fails with the
generic failure error — the same error as network and non-401 HTTP
failures, hence not distinguishable from them. -/
theorem c9_error_taxonomy (cached : Option TokenData) (now : ℚ)
    (hmiss : cacheMiss cached now) :
    (getAuthToken cached now (.httpErr 401)).result = .error msgInvalidCredentials ∧
    (∀ status, status ≠ 401 →
      (getAuthToken cached now (.httpErr status)).result = .error msgAuthFailure) ∧
    (getAuthToken cached now .netErr).result = .error msgAuthFailure ∧
    (∀ tok exp,
      (tok = none ∨ tok = some "" ∨ exp = none ∨
        (∃ e, exp = some e ∧ parseIntJs e = none) ∨
        (∃ e n, exp = some e ∧ parseIntJs e = some n ∧ n ≤ 0)) →
      (getAuthToken cached now (.ok tok exp)).result = .error msgAuthFailure) := by
  refine ⟨?_, ?_, ?_, ?_⟩
  · rw [getAuthToken_of_miss _ hmiss]; rfl
  · intro status hs
    rw [getAuthToken_of_miss _ hmiss]
    simp [attemptLogin, hs]
  · rw [getAuthToken_of_miss _ hmiss]; rfl
  · intro tok exp hbad
    rw [getAuthToken_of_miss _ hmiss]
    rcases hbad with h | h | h | ⟨e, he, hp⟩ | ⟨e, n, he, hp, hn⟩
    · subst h; cases exp <;> rfl
    · subst h; cases exp <;> rfl
    · subst h; cases tok <;> rfl
    · subst he
      cases tok with
      | none => rfl
      | some t =>
        by_cases ht : t = ""
        · simp [attemptLogin, ht]
        · simp [attemptLogin, ht, hp]
    · subst he
      cases tok with
      | none => rfl
      | some t =>
        by_cases ht : t = ""
        · simp [attemptLogin, ht]
        · simp [attemptLogin, ht, hp, hn]

/-- Witness for C9 (amended) at the empty cache. -/
theorem c9_error_taxonomy_witness :
    (getAuthToken none 0 (.httpErr 401)).result = .error msgInvalidCredentials ∧
    (∀ status, status ≠ 401 →
      (getAuthToken none 0 (.httpErr status)).result = .error msgAuthFailure) ∧
    (getAuthToken none 0 .netErr).result = .error msgAuthFailure ∧
    (∀ tok exp,
      (tok = none ∨ tok = some "" ∨ exp = none ∨
        (∃ e, exp = some e ∧ parseIntJs e = none) ∨
        (∃ e n, exp = some e ∧ parseIntJs e = some n ∧ n ≤ 0)) →
      (getAuthToken none 0 (.ok tok exp)).result = .error msgAuthFailure) :=
  c9_error_taxonomy none 0 (fun td h => by cases h)

/-- C10 (confirmed): whenever `getAuthToken` fails, the cached token entry
is exactly what it was before the call and no cache write happened; a
write happens only together with a successfully returned token. -/
theorem c10_cache_unchanged_on_failure (cached : Option TokenData) (now : ℚ)
    (resp : LoginResponse) :
    (∀ e, (getAuthToken cached now resp).result = .error e →
      (getAuthToken cached now resp).cacheAfter = cached ∧
      (getAuthToken cached now resp).ttlSet = none) ∧
    ((getAuthToken cached now resp).ttlSet ≠ none →
      ∃ t, (getAuthToken cached now resp).result = .ok t) := by
  have hshape :
      ((getAuthToken cached now resp).cacheAfter = cached ∧
        (getAuthToken cached now resp).ttlSet = none) ∨
      ((getAuthToken cached now resp).ttlSet ≠ none ∧
        ∃ t, (getAuthToken cached now resp).result = .ok t) ∨
      (∃ t, (getAuthToken cached now resp).result = .ok t ∧
        (getAuthToken cached now resp).ttlSet = none) := by
    cases cached with
    | none =>
      cases resp with
      | netErr => exact Or.inl ⟨rfl, rfl⟩
      | httpErr status =>
        by_cases hs : status = 401 <;> simp [getAuthToken, attemptLogin, hs]
      | ok tok exp =>
        cases tok with
        | none => cases exp <;> exact Or.inl ⟨rfl, rfl⟩
        | some t =>
          cases exp with
          | none => exact Or.inl ⟨rfl, rfl⟩
          | some e =>
            by_cases ht : t = ""
            · simp [getAuthToken, attemptLogin, ht]
            · cases hp : parseIntJs e with
              | none => simp [getAuthToken, attemptLogin, ht, hp]
              | some n =>
                by_cases hn : n ≤ 0
                · simp [getAuthToken, attemptLogin, ht, hp, hn]
                · by_cases httl : n - TOKEN_REFRESH_BUFFER ≤ 0 <;>
                    simp [getAuthToken, attemptLogin, ht, hp, hn, httl]
    | some td =>
      by_cases hhit : (td.token != "" && decide (now + (TOKEN_REFRESH_BUFFER : ℚ) < td.expiresAt)) = true
      · refine Or.inr (Or.inr ⟨td.token, ?_, ?_⟩) <;> simp [getAuthToken, hhit]
      · have hm : getAuthToken (some td) now resp = attemptLogin (some td) now resp := by
          simp only [getAuthToken]
          rw [if_neg]
          exact fun h => hhit h
        rw [hm]
        cases resp with
        | netErr => exact Or.inl ⟨rfl, rfl⟩
        | httpErr status =>
          by_cases hs : status = 401 <;> simp [attemptLogin, hs]
        | ok tok exp =>
          cases tok with
          | none => cases exp <;> exact Or.inl ⟨rfl, rfl⟩
          | some t =>
            cases exp with
            | none => exact Or.inl ⟨rfl, rfl⟩
            | some e =>
              by_cases ht : t = ""
              · simp [attemptLogin, ht]
              · cases hp : parseIntJs e with
                | none => simp [attemptLogin, ht, hp]
                | some n =>
                  by_cases hn : n ≤ 0
                  · simp [attemptLogin, ht, hp, hn]
                  · by_cases httl : n - TOKEN_REFRESH_BUFFER ≤ 0 <;>
                      simp [attemptLogin, ht, hp, hn, httl]
  rcases hshape with ⟨h1, h2⟩ | ⟨h1, t, h2⟩ | ⟨t, h1, h2⟩
  · exact ⟨fun e _ => ⟨h1, h2⟩, fun hne => absurd h2 hne⟩
  · refine ⟨fun e he => ?_, fun _ => ⟨t, h2⟩⟩
    rw [h2] at he; cases he
  · refine ⟨fun e he => ?_, fun hne => absurd h2 hne⟩
    rw [h1] at he; cases he

/-! ## Claim about the result assembler's sort (C5) -/

/-- Characters with equal code points are equal. -/
theorem charEq_of_toNat_eq {a b : Char} (h : a.toNat = b.toNat) : a = b :=
  Char.ext (UInt32.ext h)

/-- `lexLeChars` is total. -/
theorem lexLeChars_total : ∀ x y : List Char,
    lexLeChars x y = true ∨ lexLeChars y x = true
  | [], _ => Or.inl rfl
  | _ :: _, [] => Or.inr rfl
  | a :: as, b :: bs => by
    by_cases hab : a = b
    · subst hab
      rcases lexLeChars_total as bs with h | h
      · left; simp [lexLeChars, h]
      · right; simp [lexLeChars, h]
    · have hne : a.toNat ≠ b.toNat := fun hEq => hab (charEq_of_toNat_eq hEq)
      rcases Nat.lt_or_ge a.toNat b.toNat with h | h
      · left; simp [lexLeChars, hab, h]
      · have hlt : b.toNat < a.toNat := lt_of_le_of_ne h (fun e => hne e.symm)
        right; simp [lexLeChars, Ne.symm hab, hlt]

/-- `lexLeChars` is transitive. -/
theorem lexLeChars_trans : ∀ x y z : List Char,
    lexLeChars x y = true → lexLeChars y z = true → lexLeChars x z = true
  | [], _, _, _, _ => rfl
  | _ :: _, [], _, h1, _ => by simp [lexLeChars] at h1
  | _ :: _, _ :: _, [], _, h2 => by simp [lexLeChars] at h2
  | a :: as, b :: bs, c :: cs, h1, h2 => by
    by_cases hab : a = b <;> by_cases hbc : b = c
    · subst hab; subst hbc
      simp only [lexLeChars, if_pos rfl] at h1 h2 ⊢
      exact lexLeChars_trans as bs cs h1 h2
    · subst hab
      simp only [lexLeChars, if_pos rfl] at h1
      simp only [lexLeChars, if_neg hbc] at h2 ⊢
      exact h2
    · subst hbc
      simp only [lexLeChars, if_neg hab] at h1 ⊢
      exact h1
    · simp only [lexLeChars, if_neg hab] at h1
      simp only [lexLeChars, if_neg hbc] at h2
      have h1n := of_decide_eq_true h1
      have h2n := of_decide_eq_true h2
      have hac : a.toNat ≠ c.toNat := Nat.ne_of_lt (Nat.lt_trans h1n h2n)
      have hne : a ≠ c := fun e => hac (congrArg Char.toNat e)
      simp [lexLeChars, hne, Nat.lt_trans h1n h2n]

/-- C5 (confirmed): the assembler's sort produces a list sorted descending
by pollution value with ties broken by ascending name order, it is a
permutation of its input, and on the spec's example
`[{A,5},{B,9},{C,9}]` the output order is `[B,C,A]`. -/
theorem c5_sorted_output :
    (∀ cities : List EnrichedCity,
      List.Sorted cityBefore (sortCitiesByPollution cities) ∧
      (sortCitiesByPollution cities).Perm cities) ∧
    sortCitiesByPollution
        [⟨"A", "PL", 5, "dA"⟩, ⟨"B", "PL", 9, "dB"⟩, ⟨"C", "PL", 9, "dC"⟩] =
      [⟨"B", "PL", 9, "dB"⟩, ⟨"C", "PL", 9, "dC"⟩, ⟨"A", "PL", 5, "dA"⟩] := by
  constructor
  · intro cities
    have htot : ∀ a b : EnrichedCity, cityBefore a b ∨ cityBefore b a := by
      intro a b
      rcases lt_trichotomy a.pollution b.pollution with h | h | h
      · right; left; exact h
      · rcases lexLeChars_total a.name.data b.name.data with hn | hn
        · left; right; exact ⟨h, hn⟩
        · right; right; exact ⟨h.symm, hn⟩
      · left; left; exact h
    have htrans : ∀ a b c : EnrichedCity,
        cityBefore a b → cityBefore b c → cityBefore a c := by
      intro a b c h1 h2
      rcases h1 with h1 | ⟨h1e, h1n⟩ <;> rcases h2 with h2 | ⟨h2e, h2n⟩
      · exact Or.inl (lt_trans h2 h1)
      · exact Or.inl (by rw [← h2e]; exact h1)
      · exact Or.inl (by rw [h1e]; exact h2)
      · exact Or.inr ⟨h1e.trans h2e, lexLeChars_trans _ _ _ h1n h2n⟩
    exact ⟨@List.sorted_insertionSort _ _ _ ⟨htot⟩ ⟨htrans⟩ cities,
      List.perm_insertionSort _ _⟩
  · decide

/-! ## Claims about the description resolver's acceptance policy (C2) -/

/-- C2 counterexample: a description containing the bare substring
`"(disambiguation)"` is accepted by the policy — no entry of the fixed
negative-keyword list matches `"warsaw (disambiguation)"`, and the
country- and content-relevance checks hold. -/
theorem c2_disambiguation_accepted_counterexample :
    jsIncludes "Warsaw (disambiguation), a city in Poland" "(disambiguation)" = true ∧
    acceptDescription "Warsaw" "Warsaw" "PL"
      "Warsaw (disambiguation), a city in Poland" "warsaw" = true := by
  refine ⟨by decide, by decide⟩

/-- C2 (amended): a fetched pair whose lowercased description contains any
entry of the fixed `strongNegativeKeywords` list (which carries the
disambiguation markers `"may refer to:"`, `"disambiguation page"` and
several specific `"<word> (disambiguation)"` forms, but not the bare
substring `"(disambiguation)"`) is rejected regardless of the country- and
content-relevance checks. -/
theorem c2_negative_keyword_rejects
    (originalName lookupName countryName desc title : String)
    (h : strongNegativeKeywords.any (fun k => jsIncludes (jsToLower desc) k) = true) :
    acceptDescription originalName lookupName countryName desc title = false := by
  simp [acceptDescription, h]

/-- Witness for C2 (amended): a description that is a disambiguation page
marker is rejected even though the title matches city and country. -/
theorem c2_negative_keyword_rejects_witness :
    acceptDescription "Warsaw" "Warsaw" "PL"
      "This is a disambiguation page" "warsaw poland" = false :=
  c2_negative_keyword_rejects "Warsaw" "Warsaw" "PL"
    "This is a disambiguation page" "warsaw poland" (by decide)

/-! ## Claim about the normalizer (C3) -/

/-- Bridge between the claim's `lookupInvalid` test and the condition the
code checks. -/
theorem lookupInvalid_iff (lk : String) :
    lookupInvalid lk = true ↔
      (lk = "" ∨ isAllDigits lk = true ∨ lk.length ≤ 1) := by
  simp [lookupInvalid, or_assoc]

/-- C3 (confirmed): `normalizeCityData` rejects (returns `none`) exactly
when the name is missing or blank, the country is missing or blank, the
pollution field does not parse to a non-negative float, or the derived
lookupName is empty, all digits, or of length at most 1; in every other
case it returns the trimmed original name, the derived lookupName, the
trimmed country and the parsed pollution value.  (As a total Lean
function the embedding also witnesses that the code throws no exception:
every input yields `none` or a record.) -/
theorem c3_normalize_characterization (data : RawCityRecord) :
    (normalizeCityData data = none ↔
      (isBlankOpt data.name = true ∨ isBlankOpt data.country = true ∨
       parsesNonNegative data.pollution = false ∨
       (∃ nm, data.name = some nm ∧
         lookupInvalid (deriveLookupName (jsTrim nm)) = true))) ∧
    (∀ nm ct p v, data.name = some nm → data.country = some ct →
      data.pollution = some p → parseFloatJs p = some v →
      normalizeCityData data ≠ none →
      normalizeCityData data =
        some ⟨jsTrim nm, deriveLookupName (jsTrim nm), jsTrim ct, v⟩) := by
  constructor
  · cases hname : data.name with
    | none => simp [normalizeCityData, hname, isBlankOpt]
    | some nm =>
      by_cases hnb : jsTrim nm = ""
      · simp [normalizeCityData, hname, hnb, isBlankOpt]
      · cases hct : data.country with
        | none => simp [normalizeCityData, hname, hnb, hct, isBlankOpt]
        | some ct =>
          by_cases hcb : jsTrim ct = ""
          · simp [normalizeCityData, hname, hnb, hct, hcb, isBlankOpt]
          · cases hp : data.pollution with
            | none =>
              simp [normalizeCityData, hname, hnb, hct, hcb, hp, isBlankOpt,
                parsesNonNegative]
            | some p =>
              cases hv : parseFloatJs p with
              | none =>
                simp [normalizeCityData, hname, hnb, hct, hcb, hp, hv, isBlankOpt,
                  parsesNonNegative]
              | some v =>
                by_cases hneg : jsNumIsNeg v = true
                · simp [normalizeCityData, hname, hnb, hct, hcb, hp, hv, hneg,
                    isBlankOpt, parsesNonNegative]
                · by_cases hlk : deriveLookupName (jsTrim nm) = "" ∨
                      isAllDigits (deriveLookupName (jsTrim nm)) = true ∨
                      (deriveLookupName (jsTrim nm)).length ≤ 1
                  · simp [normalizeCityData, hname, hnb, hct, hcb, hp, hv, hneg,
                      isBlankOpt, parsesNonNegative, lookupInvalid_iff, hlk]
                  · simp [normalizeCityData, hname, hnb, hct, hcb, hp, hv, hneg,
                      isBlankOpt, parsesNonNegative, lookupInvalid_iff, hlk]
  · intro nm ct p v hname hct hp hv hne
    cases hnb : decide (jsTrim nm = "") with
    | true =>
      exact absurd (by simp [normalizeCityData, hname, of_decide_eq_true hnb]) hne
    | false =>
      have hnb2 := of_decide_eq_false hnb
      cases hcb : decide (jsTrim ct = "") with
      | true =>
        exact absurd
          (by simp [normalizeCityData, hname, hct, hnb2, of_decide_eq_true hcb]) hne
      | false =>
        have hcb2 := of_decide_eq_false hcb
        cases hneg : jsNumIsNeg v with
        | true =>
          exact absurd
            (by simp [normalizeCityData, hname, hct, hp, hv, hnb2, hcb2, hneg]) hne
        | false =>
          by_cases hlk : deriveLookupName (jsTrim nm) = "" ∨
              isAllDigits (deriveLookupName (jsTrim nm)) = true ∨
              (deriveLookupName (jsTrim nm)).length ≤ 1
          · exact absurd
              (by simp [normalizeCityData, hname, hct, hp, hv, hnb2, hcb2, hneg, hlk])
              hne
          · simp [normalizeCityData, hname, hct, hp, hv, hnb2, hcb2, hneg, hlk]

/-- Witness for C3 at the spec's end-to-end example:
`{name: "wArSAW (Capital)", country: "PL", pollution: "42.5"}` normalizes
to lookupName `"Warsaw"` with pollution value 42.5. -/
theorem c3_normalize_witness :
    normalizeCityData ⟨some "wArSAW (Capital)", some "PL", some "42.5"⟩ =
      some ⟨"wArSAW (Capital)", "Warsaw", "PL", .val (mkRat 85 2)⟩ := by
  have h := (c3_normalize_characterization
    ⟨some "wArSAW (Capital)", some "PL", some "42.5"⟩).2
    "wArSAW (Capital)" "PL" "42.5" (.val (mkRat 85 2)) rfl rfl rfl (by decide) (by decide)
  rw [h]
  decide

/-! ## Claim about the description cascade (C1) -/

/-- The cascade yields `none` exactly when every candidate fails. -/
theorem resolveFirst_none_iff (f : String → Option String) :
    ∀ qs : List String, (resolveFirst f qs).1 = none ↔ ∀ q ∈ qs, f q = none
  | [] => by simp [resolveFirst]
  | q :: qs => by
    cases hq : f q with
    | some d => simp [resolveFirst, hq]
    | none =>
      simp only [resolveFirst, hq, List.mem_cons]
      rw [resolveFirst_none_iff f qs]
      constructor
      · rintro h r (rfl | hr)
        · exact hq
        · exact h r hr
      · intro h r hr
        exact h r (Or.inr hr)

/-- When every candidate fails, the cascade consults every candidate. -/
theorem resolveFirst_trace_of_none (f : String → Option String) :
    ∀ qs : List String, (∀ q ∈ qs, f q = none) → (resolveFirst f qs).2 = qs
  | [], _ => rfl
  | q :: qs, h => by
    have hq : f q = none := h q (List.mem_cons_self q qs)
    simp only [resolveFirst, hq]
    rw [resolveFirst_trace_of_none f qs (fun r hr => h r (List.mem_cons_of_mem q hr))]

/-- A successful cascade stops at the first succeeding candidate: all
earlier candidates fail, the result is that candidate's value, and the
consulted trace is exactly the cascade's prefix up to and including it. -/
theorem resolveFirst_some (f : String → Option String) :
    ∀ (qs : List String) (d : String), (resolveFirst f qs).1 = some d →
      ∃ i, ∃ hi : i < qs.length,
        f (qs.get ⟨i, hi⟩) = some d ∧
        (∀ j (hj : j < qs.length), j < i → f (qs.get ⟨j, hj⟩) = none) ∧
        (resolveFirst f qs).2 = qs.take (i + 1)
  | [], d, h => by simp [resolveFirst] at h
  | q :: qs, d, h => by
    cases hq : f q with
    | some e =>
      have hde : e = d := by
        simp [resolveFirst, hq] at h
        exact h
      subst hde
      exact ⟨0, Nat.succ_pos _, hq, fun j hj hji => absurd hji (Nat.not_lt_zero j),
        by simp [resolveFirst, hq]⟩
    | none =>
      simp only [resolveFirst, hq] at h
      obtain ⟨i, hi, hfi, hprev, htr⟩ := resolveFirst_some f qs d h
      refine ⟨i + 1, Nat.succ_lt_succ hi, hfi, ?_, ?_⟩
      · intro j hj hji
        cases j with
        | zero => exact hq
        | succ j0 =>
          exact hprev j0 (Nat.lt_of_succ_lt_succ hj) (Nat.lt_of_succ_lt_succ hji)
      · simp only [resolveFirst, hq, List.take_succ_cons]
        rw [htr]

/-- C1 (amended): the resolver builds exactly the cascade
`["{originalName}, {country}", "{lookupName}, {country}", originalName,
lookupName]`; a candidate succeeds exactly when its cache entry is present
or its fetched description is non-empty and passes the acceptance
filters; the resolver returns the first succeeding candidate's value and
consults no candidate after it; and it returns `null` exactly when every
candidate fails (in which case all four were consulted).  The cache
hypothesis is the system's invariant that only truthy descriptions are
ever stored. -/
theorem c1_cascade_first_success (cacheF : String → Option String)
    (fetch : String → Option WikiData)
    (originalName countryName lookupName : String)
    (hcache : ∀ k d, cacheF k = some d → d ≠ "") :
    searchQueries originalName countryName lookupName =
      [originalName ++ ", " ++ countryName, lookupName ++ ", " ++ countryName,
       originalName, lookupName] ∧
    (∀ q d, candidateOutcome cacheF fetch originalName countryName lookupName q = some d ↔
      (cacheF ("wiki_" ++ q) = some d ∨
       (cacheF ("wiki_" ++ q) = none ∧ ∃ w, fetch q = some w ∧ w.description = d ∧
         d ≠ "" ∧
         acceptDescription originalName lookupName countryName w.description w.title
           = true))) ∧
    (getWikipediaDescription cacheF fetch originalName countryName lookupName = none ↔
      ∀ q ∈ searchQueries originalName countryName lookupName,
        candidateOutcome cacheF fetch originalName countryName lookupName q = none) ∧
    (getWikipediaDescription cacheF fetch originalName countryName lookupName = none →
      consultedQueries cacheF fetch originalName countryName lookupName =
        searchQueries originalName countryName lookupName) ∧
    (∀ d, getWikipediaDescription cacheF fetch originalName countryName lookupName
        = some d →
      ∃ i, ∃ hi : i < (searchQueries originalName countryName lookupName).length,
        candidateOutcome cacheF fetch originalName countryName lookupName
          ((searchQueries originalName countryName lookupName).get ⟨i, hi⟩) = some d ∧
        (∀ j (hj : j < (searchQueries originalName countryName lookupName).length),
          j < i →
          candidateOutcome cacheF fetch originalName countryName lookupName
            ((searchQueries originalName countryName lookupName).get ⟨j, hj⟩) = none) ∧
        consultedQueries cacheF fetch originalName countryName lookupName =
          (searchQueries originalName countryName lookupName).take (i + 1)) := by
  refine ⟨rfl, ?_, ?_, ?_, ?_⟩
  · intro q d
    unfold candidateOutcome
    cases hc : cacheF ("wiki_" ++ q) with
    | some e =>
      have hne : e ≠ "" := hcache _ _ hc
      simp only [hc, if_neg hne]
      constructor
      · rintro h
        cases h
        exact Or.inl rfl
      · rintro (h | ⟨hnone, _⟩)
        · cases h; rfl
        · cases hnone
    | none =>
      simp only [hc]
      cases hf : fetch q with
      | none =>
        simp only [hf]
        constructor
        · rintro ⟨⟩
        · rintro (h | ⟨_, w, hw, _⟩)
          · cases h
          · cases hw
      | some w =>
        simp only [hf]
        by_cases hok : (w.description != "" &&
            acceptDescription originalName lookupName countryName
              w.description w.title) = true
        · rw [if_pos hok]
          obtain ⟨hdne, hacc⟩ := Bool.and_eq_true_iff.mp hok
          constructor
          · rintro h
            cases h
            exact Or.inr ⟨trivial, w, rfl, rfl, by simpa using hdne, hacc⟩
          · rintro (h | ⟨_, w2, hw2, hdesc, _, _⟩)
            · cases h
            · cases hw2; rw [hdesc]
        · rw [if_neg hok]
          constructor
          · rintro ⟨⟩
          · rintro (h | ⟨_, w2, hw2, hdesc, hdne, hacc⟩)
            · cases h
            · cases hw2
              subst hdesc
              exact absurd (Bool.and_eq_true_iff.mpr
                ⟨bne_iff_ne.mpr hdne, hacc⟩) hok
  · exact resolveFirst_none_iff _ _
  · intro h
    exact resolveFirst_trace_of_none _ _ ((resolveFirst_none_iff _ _).mp h)
  · intro d h
    exact resolveFirst_some _ _ d h

/-- Witness for C1 (amended) at the empty cache and an always-failing
lookup oracle. -/
theorem c1_cascade_first_success_witness :
    searchQueries "Warsaw" "PL" "Warsaw" =
      ["Warsaw" ++ ", " ++ "PL", "Warsaw" ++ ", " ++ "PL", "Warsaw", "Warsaw"] ∧
    (∀ q d, candidateOutcome cacheEmpty (fun _ => none) "Warsaw" "PL" "Warsaw" q
        = some d ↔
      (cacheEmpty ("wiki_" ++ q) = some d ∨
       (cacheEmpty ("wiki_" ++ q) = none ∧ ∃ w, (fun _ => none : String → Option WikiData) q = some w ∧
         w.description = d ∧ d ≠ "" ∧
         acceptDescription "Warsaw" "Warsaw" "PL" w.description w.title = true))) ∧
    (getWikipediaDescription cacheEmpty (fun _ => none) "Warsaw" "PL" "Warsaw" = none ↔
      ∀ q ∈ searchQueries "Warsaw" "PL" "Warsaw",
        candidateOutcome cacheEmpty (fun _ => none) "Warsaw" "PL" "Warsaw" q = none) ∧
    (getWikipediaDescription cacheEmpty (fun _ => none) "Warsaw" "PL" "Warsaw" = none →
      consultedQueries cacheEmpty (fun _ => none) "Warsaw" "PL" "Warsaw" =
        searchQueries "Warsaw" "PL" "Warsaw") ∧
    (∀ d, getWikipediaDescription cacheEmpty (fun _ => none) "Warsaw" "PL" "Warsaw"
        = some d →
      ∃ i, ∃ hi : i < (searchQueries "Warsaw" "PL" "Warsaw").length,
        candidateOutcome cacheEmpty (fun _ => none) "Warsaw" "PL" "Warsaw"
          ((searchQueries "Warsaw" "PL" "Warsaw").get ⟨i, hi⟩) = some d ∧
        (∀ j (hj : j < (searchQueries "Warsaw" "PL" "Warsaw").length), j < i →
          candidateOutcome cacheEmpty (fun _ => none) "Warsaw" "PL" "Warsaw"
            ((searchQueries "Warsaw" "PL" "Warsaw").get ⟨j, hj⟩) = none) ∧
        consultedQueries cacheEmpty (fun _ => none) "Warsaw" "PL" "Warsaw" =
          (searchQueries "Warsaw" "PL" "Warsaw").take (i + 1)) :=
  c1_cascade_first_success cacheEmpty (fun _ => none) "Warsaw" "PL" "Warsaw"
    (fun k d h => by cases h)

/-- C1 counterexample: the first candidate's fetched pair passes all three
acceptance filters (empty description, but city- and country-matching
title), yet the resolver returns `null` — the code additionally requires
the fetched description to be truthy, so "returns at the first candidate
whose fetched description passes the acceptance filters" is not what the
code does. -/
theorem c1_empty_description_counterexample :
    acceptDescription "Warsaw" "Warsaw" "PL" "" "warsaw poland" = true ∧
    fetchEmptyDesc ("Warsaw" ++ ", " ++ "PL") = some ⟨"", "warsaw poland"⟩ ∧
    getWikipediaDescription cacheEmpty fetchEmptyDesc "Warsaw" "PL" "Warsaw" = none := by
  refine ⟨by decide, by decide, by decide⟩

/-! ## Claim about lookupName idempotence (C4)

The derivation is analysed through `tcStream` (proved equal to the
split/title-case/join step), through `hasViable` (the positions at which
the paren-stripping regex could still match), and through the invariants
that survive each pipeline stage when the raw name's whitespace consists
of plain spaces only. -/

/-- `Char.ofNat` of a small scalar round-trips through `toNat`. -/
theorem char_toNat_ofNat_small (n : Nat) (h : n < 55296) :
    (Char.ofNat n).toNat = n := by
  have hv : Nat.isValidChar n := Or.inl h
  simp [Char.ofNat, hv]
  rfl

/-- `jsToUpperChar` either fixes its argument or lands in `A`–`Z`. -/
theorem jsToUpperChar_range (c : Char) :
    jsToUpperChar c = c ∨
      (65 ≤ (jsToUpperChar c).toNat ∧ (jsToUpperChar c).toNat ≤ 90) := by
  by_cases h : 97 ≤ c.toNat ∧ c.toNat ≤ 122
  · right
    unfold jsToUpperChar
    rw [if_pos h, char_toNat_ofNat_small _ (by omega)]
    omega
  · left
    unfold jsToUpperChar
    rw [if_neg h]

/-- `jsToLowerChar` either fixes its argument or lands in `a`–`z`. -/
theorem jsToLowerChar_range (c : Char) :
    jsToLowerChar c = c ∨
      (97 ≤ (jsToLowerChar c).toNat ∧ (jsToLowerChar c).toNat ≤ 122) := by
  by_cases h : 65 ≤ c.toNat ∧ c.toNat ≤ 90
  · right
    unfold jsToLowerChar
    rw [if_pos h, char_toNat_ofNat_small _ (by omega)]
    omega
  · left
    unfold jsToLowerChar
    rw [if_neg h]

/-- The code points of the modelled whitespace class. -/
theorem isJsWs_toNat {x : Char} (h : isJsWs x = true) :
    x.toNat = 32 ∨ x.toNat = 9 ∨ x.toNat = 10 ∨ x.toNat = 13 ∨ x.toNat = 11 ∨
    x.toNat = 12 ∨ x.toNat = 160 ∨ x.toNat = 8232 ∨ x.toNat = 8233 := by
  unfold isJsWs at h
  simp only [Bool.or_eq_true, decide_eq_true_eq] at h
  rcases h with ((((((((h | h) | h) | h) | h) | h) | h) | h) | h) <;>
    subst h <;> simp

/-- An upper-case letter is not whitespace. -/
theorem not_ws_of_upper_range {x : Char} (h1 : 65 ≤ x.toNat) (h2 : x.toNat ≤ 90) :
    isJsWs x = false := by
  cases hx : isJsWs x
  · rfl
  · rcases isJsWs_toNat hx with h | h | h | h | h | h | h | h | h <;> omega

/-- A lower-case letter is not whitespace. -/
theorem not_ws_of_lower_range {x : Char} (h1 : 97 ≤ x.toNat) (h2 : x.toNat ≤ 122) :
    isJsWs x = false := by
  cases hx : isJsWs x
  · rfl
  · rcases isJsWs_toNat hx with h | h | h | h | h | h | h | h | h <;> omega

/-- Case mapping is idempotent (upper). -/
theorem jsToUpperChar_idem (c : Char) :
    jsToUpperChar (jsToUpperChar c) = jsToUpperChar c := by
  rcases jsToUpperChar_range c with h | ⟨h1, h2⟩
  · rw [h]; exact h
  · set d := jsToUpperChar c with hd
    unfold jsToUpperChar
    rw [if_neg (by omega)]

/-- Case mapping is idempotent (lower). -/
theorem jsToLowerChar_idem (c : Char) :
    jsToLowerChar (jsToLowerChar c) = jsToLowerChar c := by
  rcases jsToLowerChar_range c with h | ⟨h1, h2⟩
  · rw [h]; exact h
  · set d := jsToLowerChar c with hd
    unfold jsToLowerChar
    rw [if_neg (by omega)]

/-- Only the space maps to a space (upper). -/
theorem jsToUpperChar_eq_space {c : Char} (h : jsToUpperChar c = ' ') : c = ' ' := by
  rcases jsToUpperChar_range c with h0 | ⟨h1, h2⟩
  · rwa [h0] at h
  · exfalso
    have h3 : (jsToUpperChar c).toNat = 32 := by rw [h]; rfl
    omega

/-- Only the space maps to a space (lower). -/
theorem jsToLowerChar_eq_space {c : Char} (h : jsToLowerChar c = ' ') : c = ' ' := by
  rcases jsToLowerChar_range c with h0 | ⟨h1, h2⟩
  · rwa [h0] at h
  · exfalso
    have h3 : (jsToLowerChar c).toNat = 32 := by rw [h]; rfl
    omega

/-- Only `)` maps to `)` (upper). -/
theorem jsToUpperChar_eq_close {c : Char} (h : jsToUpperChar c = ')') : c = ')' := by
  rcases jsToUpperChar_range c with h0 | ⟨h1, h2⟩
  · rwa [h0] at h
  · exfalso
    have h3 : (jsToUpperChar c).toNat = 41 := by rw [h]; rfl
    omega

/-- Only `)` maps to `)` (lower). -/
theorem jsToLowerChar_eq_close {c : Char} (h : jsToLowerChar c = ')') : c = ')' := by
  rcases jsToLowerChar_range c with h0 | ⟨h1, h2⟩
  · rwa [h0] at h
  · exfalso
    have h3 : (jsToLowerChar c).toNat = 41 := by rw [h]; rfl
    omega

/-- Only `(` maps to `(` (upper). -/
theorem jsToUpperChar_eq_open {c : Char} (h : jsToUpperChar c = '(') : c = '(' := by
  rcases jsToUpperChar_range c with h0 | ⟨h1, h2⟩
  · rwa [h0] at h
  · exfalso
    have h3 : (jsToUpperChar c).toNat = 40 := by rw [h]; rfl
    omega

/-- Only `(` maps to `(` (lower). -/
theorem jsToLowerChar_eq_open {c : Char} (h : jsToLowerChar c = '(') : c = '(' := by
  rcases jsToLowerChar_range c with h0 | ⟨h1, h2⟩
  · rwa [h0] at h
  · exfalso
    have h3 : (jsToLowerChar c).toNat = 40 := by rw [h]; rfl
    omega

/-- A space-only character stays space-only under case mapping (upper). -/
theorem spaceOnly_char_upper {c : Char} (hc : isJsWs c = true → c = ' ') :
    isJsWs (jsToUpperChar c) = true → jsToUpperChar c = ' ' := by
  intro hws
  rcases jsToUpperChar_range c with h0 | ⟨h1, h2⟩
  · rw [h0] at hws ⊢
    rw [hc hws]
  · rw [not_ws_of_upper_range h1 h2] at hws
    cases hws

/-- A space-only character stays space-only under case mapping (lower). -/
theorem spaceOnly_char_lower {c : Char} (hc : isJsWs c = true → c = ' ') :
    isJsWs (jsToLowerChar c) = true → jsToLowerChar c = ' ' := by
  intro hws
  rcases jsToLowerChar_range c with h0 | ⟨h1, h2⟩
  · rw [h0] at hws ⊢
    rw [hc hws]
  · rw [not_ws_of_lower_range h1 h2] at hws
    cases hws

/-- `splitSp` always yields at least one field. -/
theorem splitSp_shape : ∀ l : List Char, ∃ w ws, splitSp l = w :: ws
  | [] => ⟨[], [], rfl⟩
  | c :: rest => by
    obtain ⟨w, ws, h⟩ := splitSp_shape rest
    by_cases hc : c = ' '
    · exact ⟨[], w :: ws, by simp [splitSp, h, hc]⟩
    · exact ⟨c :: w, ws, by simp [splitSp, h, hc]⟩

/-- `joinSp` in head/tail form. -/
theorem joinSp_cons (w : List Char) (ws : List (List Char)) :
    joinSp (w :: ws) = w ++ joinSpTail ws := by
  cases ws with
  | nil => simp [joinSp, joinSpTail]
  | cons x xs => simp [joinSp, joinSpTail]

/-- Split / per-word title casing / join is exactly the character stream
`tcStream true`. -/
theorem tc_factor : ∀ l : List Char,
    joinSp ((splitSp l).map titleCaseWord) = tcStream true l ∧
    (∀ w ws, splitSp l = w :: ws →
      w.map jsToLowerChar ++ joinSpTail (ws.map titleCaseWord) = tcStream false l)
  | [] => by
    refine ⟨rfl, ?_⟩
    intro w ws h
    have hw : w = [] ∧ ws = ([] : List (List Char)) := by
      have : ([[]] : List (List Char)) = w :: ws := h
      cases this
      exact ⟨rfl, rfl⟩
    obtain ⟨rfl, rfl⟩ := hw
    rfl
  | c :: rest => by
    obtain ⟨w, ws, hs⟩ := splitSp_shape rest
    obtain ⟨IH1, IH2⟩ := tc_factor rest
    by_cases hc : c = ' '
    · subst hc
      have hsplit : splitSp (' ' :: rest) = [] :: w :: ws := by
        simp [splitSp, hs]
      have htail : joinSpTail ((w :: ws).map titleCaseWord) = ' ' :: tcStream true rest := by
        show ' ' :: joinSp ((w :: ws).map titleCaseWord) = ' ' :: tcStream true rest
        rw [← hs, IH1]
      constructor
      · rw [hsplit, List.map_cons, joinSp_cons]
        show titleCaseWord [] ++ joinSpTail ((w :: ws).map titleCaseWord) =
          tcStream true (' ' :: rest)
        rw [htail]
        rfl
      · intro w2 ws2 h2
        rw [hsplit] at h2
        cases h2
        rw [List.map_nil, List.nil_append, htail]
        rfl
    · have hsplit : splitSp (c :: rest) = (c :: w) :: ws := by
        simp [splitSp, hs, hc]
      constructor
      · rw [hsplit, List.map_cons, joinSp_cons]
        show (jsToUpperChar c :: w.map jsToLowerChar) ++
            joinSpTail (ws.map titleCaseWord) = tcStream true (c :: rest)
        rw [List.cons_append, IH2 w ws hs]
        simp [tcStream, hc]
      · intro w2 ws2 h2
        rw [hsplit] at h2
        cases h2
        rw [List.map_cons, List.cons_append, IH2 w ws hs]
        simp [tcStream, hc]

/-- `dropWhile` is idempotent. -/
theorem dropWhile_dropWhile (p : Char → Bool) : ∀ l : List Char,
    List.dropWhile p (List.dropWhile p l) = List.dropWhile p l
  | [] => rfl
  | a :: l => by
    rw [List.dropWhile_cons]
    by_cases ha : p a = true
    · rw [if_pos ha]
      exact dropWhile_dropWhile p l
    · rw [if_neg ha, List.dropWhile_cons, if_neg ha]

/-- The head surviving a `dropWhile` falsifies the predicate. -/
theorem dropWhile_head_false (p : Char → Bool) : ∀ (l : List Char) (c : Char)
    (t : List Char), List.dropWhile p l = c :: t → p c = false
  | [], c, t, h => by cases h
  | a :: l, c, t, h => by
    rw [List.dropWhile_cons] at h
    by_cases ha : p a = true
    · rw [if_pos ha] at h
      exact dropWhile_head_false p l c t h
    · rw [if_neg ha] at h
      cases h
      simpa using ha

/-- `dropWhile` over an appended final element that falsifies `p`. -/
theorem dropWhile_append_singleton (p : Char → Bool) {c : Char}
    (hc : p c = false) : ∀ xs : List Char,
    List.dropWhile p (xs ++ [c]) = List.dropWhile p xs ++ [c]
  | [] => by simp [List.dropWhile_cons, hc]
  | a :: xs => by
    rw [List.cons_append, List.dropWhile_cons, List.dropWhile_cons]
    by_cases ha : p a = true
    · rw [if_pos ha, if_pos ha]
      exact dropWhile_append_singleton p hc xs
    · rw [if_neg ha, if_neg ha, List.cons_append]

/-- `dropTrail` walks under a head that is not whitespace. -/
theorem dropTrail_cons_of_false {c : Char} (hc : isJsWs c = false)
    (t : List Char) : dropTrail (c :: t) = c :: dropTrail t := by
  unfold dropTrail
  rw [List.reverse_cons, dropWhile_append_singleton isJsWs hc, List.reverse_append]
  rfl

/-- `dropTrail l` is a prefix of `l`. -/
theorem dropTrail_eq_append (l : List Char) :
    l = dropTrail l ++ (List.takeWhile isJsWs l.reverse).reverse := by
  conv_lhs => rw [← List.reverse_reverse l,
    ← List.takeWhile_append_dropWhile isJsWs l.reverse]
  rw [List.reverse_append]
  rfl

/-- `dropTrail` is idempotent. -/
theorem dropTrail_dropTrail (l : List Char) :
    dropTrail (dropTrail l) = dropTrail l := by
  unfold dropTrail
  rw [List.reverse_reverse, dropWhile_dropWhile]

/-- `trimChars` as leading then trailing removal. -/
theorem trimChars_eq (l : List Char) :
    trimChars l = dropTrail (List.dropWhile isJsWs l) := rfl

/-- `trimChars` is idempotent. -/
theorem trimChars_trimChars (l : List Char) :
    trimChars (trimChars l) = trimChars l := by
  rw [trimChars_eq, trimChars_eq]
  have hdw : List.dropWhile isJsWs (dropTrail (List.dropWhile isJsWs l)) =
      dropTrail (List.dropWhile isJsWs l) := by
    cases hm : List.dropWhile isJsWs l with
    | nil => rfl
    | cons c t =>
      have hc : isJsWs c = false := dropWhile_head_false isJsWs l c t hm
      rw [dropTrail_cons_of_false hc, List.dropWhile_cons, if_neg (by simp [hc])]
  rw [hdw, dropTrail_dropTrail]

/-- Membership transports out of `dropTrail`. -/
theorem mem_of_mem_dropTrail {c : Char} {l : List Char}
    (h : c ∈ dropTrail l) : c ∈ l := by
  unfold dropTrail at h
  rw [List.mem_reverse] at h
  exact List.mem_reverse.mp (List.Sublist.mem h (List.dropWhile_suffix isJsWs).sublist)

/-- Membership transports out of `trimChars`. -/
theorem mem_of_mem_trimChars {c : Char} {l : List Char}
    (h : c ∈ trimChars l) : c ∈ l := by
  rw [trimChars_eq] at h
  exact List.Sublist.mem (mem_of_mem_dropTrail h) (List.dropWhile_suffix isJsWs).sublist

/-- `spaceOnly` restricts along any membership-preserving map. -/
theorem spaceOnly_of_subset {l m : List Char}
    (hsub : ∀ c, c ∈ m → c ∈ l) (h : spaceOnly l) : spaceOnly m :=
  fun c hc hws => h c (hsub c hc) hws

/-- `spaceOnly` passes to the tail. -/
theorem spaceOnly_tail {c : Char} {l : List Char} (h : spaceOnly (c :: l)) :
    spaceOnly l :=
  spaceOnly_of_subset (fun _ hx => List.mem_cons_of_mem c hx) h

/-- `tcStream` on a space head, whatever the state. -/
theorem tcStream_cons_space (b : Bool) (t : List Char) :
    tcStream b (' ' :: t) = ' ' :: tcStream true t := by
  simp [tcStream]

/-- `tcStream` preserves length. -/
theorem tcStream_length : ∀ (b : Bool) (l : List Char),
    (tcStream b l).length = l.length
  | _, [] => rfl
  | b, c :: rest => by
    by_cases hc : c = ' ' <;>
      simp [tcStream, hc, tcStream_length _ rest]

/-- `tcStream` distributes over append via `tcState`. -/
theorem tcStream_append (y : List Char) : ∀ (b : Bool) (x : List Char),
    tcStream b (x ++ y) = tcStream b x ++ tcStream (tcState b x) y
  | _, [] => rfl
  | b, c :: x => by
    by_cases hc : c = ' '
    · subst hc
      rw [List.cons_append, tcStream_cons_space, tcStream_cons_space,
        tcStream_append y true x, List.cons_append]
      rfl
    · simp only [List.cons_append, tcStream, if_neg hc, tcState, List.append_eq]
      rw [tcStream_append y false x]

/-- `tcStream` is idempotent. -/
theorem tcStream_idem : ∀ (b : Bool) (l : List Char),
    tcStream b (tcStream b l) = tcStream b l
  | _, [] => rfl
  | b, c :: rest => by
    by_cases hc : c = ' '
    · subst hc
      rw [tcStream_cons_space, tcStream_cons_space, tcStream_idem true rest]
    · cases b with
      | true =>
        have hh : jsToUpperChar c ≠ ' ' := fun h => hc (jsToUpperChar_eq_space h)
        simp [tcStream, hc, hh, jsToUpperChar_idem, tcStream_idem false rest]
      | false =>
        have hh : jsToLowerChar c ≠ ' ' := fun h => hc (jsToLowerChar_eq_space h)
        simp [tcStream, hc, hh, jsToLowerChar_idem, tcStream_idem false rest]

/-- A close paren in the title-cased stream comes from a close paren. -/
theorem close_mem_of_mem_tcStream : ∀ (b : Bool) (l : List Char),
    ')' ∈ tcStream b l → ')' ∈ l
  | _, [], h => by cases h
  | b, c :: rest, h => by
    by_cases hc : c = ' '
    · subst hc
      rw [tcStream_cons_space] at h
      rcases List.mem_cons.mp h with h0 | h0
      · cases h0
      · exact List.mem_cons_of_mem _ (close_mem_of_mem_tcStream true rest h0)
    · simp only [tcStream, if_neg hc] at h
      rcases List.mem_cons.mp h with h0 | h0
      · cases b with
        | true =>
          have hcc : jsToUpperChar c = ')' := by simpa using h0.symm
          rw [jsToUpperChar_eq_close hcc]
          exact List.mem_cons_self _ _
        | false =>
          have hcc : jsToLowerChar c = ')' := by simpa using h0.symm
          rw [jsToLowerChar_eq_close hcc]
          exact List.mem_cons_self _ _
      · exact List.mem_cons_of_mem _ (close_mem_of_mem_tcStream false rest h0)

/-- The title-cased stream of a space-only list is space-only. -/
theorem spaceOnly_tcStream : ∀ (b : Bool) (l : List Char), spaceOnly l →
    spaceOnly (tcStream b l)
  | _, [], _ => fun c hc => by cases hc
  | b, c :: rest, hP => by
    intro x hx hws
    by_cases hc : c = ' '
    · subst hc
      rw [tcStream_cons_space] at hx
      rcases List.mem_cons.mp hx with h0 | h0
      · exact h0
      · exact spaceOnly_tcStream true rest (spaceOnly_tail hP) x h0 hws
    · simp only [tcStream, if_neg hc] at hx
      rcases List.mem_cons.mp hx with h0 | h0
      · subst h0
        have hchar : isJsWs c = true → c = ' ' := hP c (List.mem_cons_self _ _)
        cases b with
        | true => exact spaceOnly_char_upper hchar (by simpa using hws)
        | false => exact spaceOnly_char_lower hchar (by simpa using hws)
      · exact spaceOnly_tcStream false rest (spaceOnly_tail hP) x h0 hws

/-- The word-start state after an all-space chunk starting in state `true`. -/
theorem tcState_true_of_spaces : ∀ x : List Char, (∀ c ∈ x, c = ' ') →
    tcState true x = true
  | [], _ => rfl
  | c :: x, h => by
    have hc : c = ' ' := h c (List.mem_cons_self _ _)
    simp only [tcState, hc, if_pos rfl]
    exact tcState_true_of_spaces x (fun d hd => h d (List.mem_cons_of_mem c hd))

/-- A fixed point of `tcStream` splits at any append. -/
theorem tcStream_fixed_split {b : Bool} {x y : List Char}
    (h : tcStream b (x ++ y) = x ++ y) :
    tcStream b x = x ∧ tcStream (tcState b x) y = y := by
  rw [tcStream_append] at h
  exact List.append_inj h (by rw [tcStream_length])

/-- A space-only fixed point of `tcStream true` stays fixed after trimming. -/
theorem tcStream_fixed_trimChars {l : List Char} (hP : spaceOnly l)
    (h : tcStream true l = l) :
    tcStream true (trimChars l) = trimChars l := by
  have hsplit1 := List.takeWhile_append_dropWhile isJsWs l
  have h1 : tcStream true (List.takeWhile isJsWs l ++ List.dropWhile isJsWs l) =
      List.takeWhile isJsWs l ++ List.dropWhile isJsWs l := by rw [hsplit1]; exact h
  obtain ⟨h2, h3⟩ := tcStream_fixed_split h1
  have hspaces : ∀ c ∈ List.takeWhile isJsWs l, c = ' ' := by
    intro c hcmem
    have hws := List.mem_takeWhile_imp hcmem
    exact hP c (List.Sublist.mem hcmem (List.takeWhile_sublist _)) hws
  rw [tcState_true_of_spaces _ hspaces] at h3
  have hsplit2 := dropTrail_eq_append (List.dropWhile isJsWs l)
  have h4 : tcStream true (dropTrail (List.dropWhile isJsWs l) ++
      (List.takeWhile isJsWs (List.dropWhile isJsWs l).reverse).reverse) =
      dropTrail (List.dropWhile isJsWs l) ++
      (List.takeWhile isJsWs (List.dropWhile isJsWs l).reverse).reverse := by
    rw [← hsplit2]; exact h3
  obtain ⟨h5, _⟩ := tcStream_fixed_split h4
  rw [trimChars_eq]
  exact h5

/-- The space character is whitespace. -/
theorem isJsWs_space : isJsWs ' ' = true := by decide

/-- A whitespace-headed, space-only list collapses to a space-headed list. -/
theorem collapseWs_ws_head : ∀ (c : Char) (r : List Char), isJsWs c = true →
    ∃ t, collapseWs (c :: r) = ' ' :: t
  | c, [], hc => ⟨[], by simp [collapseWs, hc]⟩
  | c, e :: r2, hc => by
    by_cases he : isJsWs e = true
    · obtain ⟨t, ht⟩ := collapseWs_ws_head e r2 he
      exact ⟨t, by simp only [collapseWs, if_pos hc, if_pos he]; exact ht⟩
    · exact ⟨collapseWs (e :: r2), by simp only [collapseWs, if_pos hc, if_neg he]⟩

/-- A space-only fixed point of `tcStream` stays fixed after collapsing
whitespace runs. -/
theorem tcStream_fixed_collapseWs : ∀ (l : List Char) (b : Bool), spaceOnly l →
    tcStream b l = l → tcStream b (collapseWs l) = collapseWs l
  | [], _, _, _ => rfl
  | [c], b, hP, hfix => by
    by_cases hc : isJsWs c = true
    · have hcs : c = ' ' := hP c (List.mem_cons_self _ _) hc
      subst hcs
      simp [collapseWs, tcStream]
    · simp only [collapseWs, if_neg hc]
      exact hfix
  | c :: d :: rest, b, hP, hfix => by
    by_cases hwc : isJsWs c = true
    · have hcs : c = ' ' := hP c (List.mem_cons_self _ _) hwc
      subst hcs
      rw [tcStream_cons_space] at hfix
      have hfix2 : tcStream true (d :: rest) = d :: rest := by
        injection hfix
      by_cases hwd : isJsWs d = true
      · have hds : d = ' ' :=
          hP d (List.mem_cons_of_mem _ (List.mem_cons_self _ _)) hwd
      -- collapse drops the first of two adjacent whitespace characters
        have hcoll : collapseWs (' ' :: d :: rest) = collapseWs (d :: rest) := by
          simp [collapseWs, hwd, isJsWs_space]
        rw [hcoll]
        have IH := tcStream_fixed_collapseWs (d :: rest) true
          (spaceOnly_tail hP) hfix2
        subst hds
        obtain ⟨t, ht⟩ := collapseWs_ws_head ' ' rest (by decide)
        rw [ht] at IH ⊢
        rw [tcStream_cons_space] at IH ⊢
        exact IH
      · have hcoll : collapseWs (' ' :: d :: rest) =
            ' ' :: collapseWs (d :: rest) := by
          simp [collapseWs, hwd]
        rw [hcoll, tcStream_cons_space]
        rw [tcStream_fixed_collapseWs (d :: rest) true (spaceOnly_tail hP) hfix2]
    · have hcs : c ≠ ' ' := by
        intro h0
        subst h0
        exact hwc isJsWs_space
      have hcoll : collapseWs (c :: d :: rest) = c :: collapseWs (d :: rest) := by
        simp [collapseWs, hwc]
      simp only [tcStream, if_neg hcs] at hfix
      have hhead : (if b = true then jsToUpperChar c else jsToLowerChar c) = c := by
        have := congrArg (fun l => l.headI) hfix
        simpa using this
      have hfix2 : tcStream false (d :: rest) = d :: rest := by
        have := congrArg (fun l => l.tail) hfix
        simpa using this
      rw [hcoll]
      simp only [tcStream, if_neg hcs, hhead]
      rw [tcStream_fixed_collapseWs (d :: rest) false (spaceOnly_tail hP) hfix2]

/-- Every character of a collapsed list is a space or a non-whitespace
character of the original. -/
theorem mem_collapseWs : ∀ (l : List Char) (c : Char), c ∈ collapseWs l →
    c = ' ' ∨ (c ∈ l ∧ isJsWs c = false)
  | [], c, h => by cases h
  | [d], c, h => by
    by_cases hd : isJsWs d = true
    · simp only [collapseWs, if_pos hd] at h
      left
      simpa using h
    · simp only [collapseWs, if_neg hd] at h
      right
      simp only [List.mem_singleton] at h
      subst h
      exact ⟨List.mem_singleton_self c, by simpa using hd⟩
  | d :: e :: rest, c, h => by
    by_cases hd : isJsWs d = true
    · by_cases he : isJsWs e = true
      · simp only [collapseWs, if_pos hd, if_pos he] at h
        rcases mem_collapseWs (e :: rest) c h with h0 | ⟨h0, h1⟩
        · exact Or.inl h0
        · exact Or.inr ⟨List.mem_cons_of_mem d h0, h1⟩
      · simp only [collapseWs, if_pos hd, if_neg he] at h
        rcases List.mem_cons.mp h with h0 | h0
        · exact Or.inl h0
        · rcases mem_collapseWs (e :: rest) c h0 with h1 | ⟨h1, h2⟩
          · exact Or.inl h1
          · exact Or.inr ⟨List.mem_cons_of_mem d h1, h2⟩
    · simp only [collapseWs, if_neg hd] at h
      rcases List.mem_cons.mp h with h0 | h0
      · subst h0
        exact Or.inr ⟨List.mem_cons_self _ _, by simpa using hd⟩
      · rcases mem_collapseWs (e :: rest) c h0 with h1 | ⟨h1, h2⟩
        · exact Or.inl h1
        · exact Or.inr ⟨List.mem_cons_of_mem d h1, h2⟩

/-- A collapsed list is unconditionally space-only. -/
theorem spaceOnly_collapseWs (l : List Char) : spaceOnly (collapseWs l) := by
  intro c hc hws
  rcases mem_collapseWs l c hc with h | ⟨_, h⟩
  · exact h
  · rw [h] at hws
    cases hws

/-- A non-whitespace-headed list collapses to itself on the head. -/
theorem collapseWs_cons_of_not_ws {d : Char} (hd : isJsWs d = false)
    (r : List Char) : collapseWs (d :: r) = d :: collapseWs r := by
  cases r with
  | nil => simp [collapseWs, hd]
  | cons e r2 =>
    by_cases he : isJsWs e = true <;>
      simp [collapseWs, hd, he]

/-- A collapsed list has no two adjacent whitespace characters. -/
theorem noAdjWs_collapseWs : ∀ l : List Char, noAdjWs (collapseWs l)
  | [] => List.chain'_nil
  | [d] => by
    by_cases hd : isJsWs d = true <;>
      simp [collapseWs, hd, noAdjWs]
  | d :: e :: rest => by
    have IH := noAdjWs_collapseWs (e :: rest)
    by_cases hd : isJsWs d = true
    · by_cases he : isJsWs e = true
      · simpa [collapseWs, hd, he] using IH
      · have he2 : isJsWs e = false := by simpa using he
        have hcoll : collapseWs (d :: e :: rest) = ' ' :: collapseWs (e :: rest) := by
          simp [collapseWs, hd, he]
        rw [noAdjWs, hcoll, collapseWs_cons_of_not_ws he2, List.chain'_cons]
        rw [noAdjWs, collapseWs_cons_of_not_ws he2] at IH
        exact ⟨fun _ => he2, IH⟩
    · have hd2 : isJsWs d = false := by simpa using hd
      rw [noAdjWs, collapseWs_cons_of_not_ws hd2]
      cases hcr : collapseWs (e :: rest) with
      | nil => exact List.chain'_singleton d
      | cons x t =>
        rw [List.chain'_cons]
        constructor
        · intro hdws
          rw [hd2] at hdws
          cases hdws
        · rw [← hcr]
          exact IH

/-- A space-only list without adjacent whitespace is a `collapseWs` fixed
point. -/
theorem collapseWs_eq_self : ∀ l : List Char, spaceOnly l → noAdjWs l →
    collapseWs l = l
  | [], _, _ => rfl
  | [c], hP, _ => by
    by_cases hc : isJsWs c = true
    · have : c = ' ' := hP c (List.mem_cons_self _ _) hc
      subst this
      simp [collapseWs]
    · simp [collapseWs, hc]
  | c :: d :: rest, hP, hA => by
    obtain ⟨hrel, hA2⟩ := List.chain'_cons.mp hA
    by_cases hc : isJsWs c = true
    · have hcs : c = ' ' := hP c (List.mem_cons_self _ _) hc
      have hd : isJsWs d = false := hrel hc
      have hcoll : collapseWs (c :: d :: rest) = ' ' :: collapseWs (d :: rest) := by
        subst hcs
        simp [collapseWs, isJsWs_space, hd]
      rw [hcoll, collapseWs_eq_self (d :: rest) (spaceOnly_tail hP) hA2, hcs]
    · have hc2 : isJsWs c = false := by simpa using hc
      rw [collapseWs_cons_of_not_ws hc2,
        collapseWs_eq_self (d :: rest) (spaceOnly_tail hP) hA2]

/-- Trimming preserves the no-adjacent-whitespace property. -/
theorem noAdjWs_trimChars {l : List Char} (h : noAdjWs l) :
    noAdjWs (trimChars l) := by
  have h1 : noAdjWs (List.dropWhile isJsWs l) := by
    have hsplit := List.takeWhile_append_dropWhile isJsWs l
    rw [noAdjWs, ← hsplit] at h
    exact List.Chain'.right_of_append h
  rw [trimChars_eq]
  have hsplit2 := dropTrail_eq_append (List.dropWhile isJsWs l)
  rw [noAdjWs, hsplit2] at h1
  exact List.Chain'.left_of_append h1

/-- `tailHasClose` unpacked. -/
theorem tailHasClose_iff (l : List Char) :
    tailHasClose l = true ↔ ∃ x t, l = x :: t ∧ ')' ∈ t := by
  cases l with
  | nil =>
    simp [tailHasClose]
  | cons x t =>
    simp only [tailHasClose]
    constructor
    · intro h
      exact ⟨x, t, rfl, by simpa using h⟩
    · rintro ⟨x2, t2, heq, hmem⟩
      cases heq
      simpa using hmem

/-- `hasViable` unpacked on a cons. -/
theorem hasViable_cons (c : Char) (rest : List Char) :
    hasViable (c :: rest) = true ↔
      (c = '(' ∧ tailHasClose rest = true) ∨ hasViable rest = true := by
  simp [hasViable]

/-- `hasViable` is monotone along `dropWhile`. -/
theorem hasViable_dropWhile (p : Char → Bool) : ∀ l : List Char,
    hasViable (List.dropWhile p l) = true → hasViable l = true
  | [], h => h
  | c :: rest, h => by
    rw [List.dropWhile_cons] at h
    by_cases hc : p c = true
    · rw [if_pos hc] at h
      rw [hasViable_cons]
      exact Or.inr (hasViable_dropWhile p rest h)
    · rwa [if_neg hc] at h

/-- `hasViable` is monotone along extension to the right. -/
theorem hasViable_append_left (y : List Char) : ∀ x : List Char,
    hasViable x = true → hasViable (x ++ y) = true
  | [], h => by cases h
  | c :: rest, h => by
    rw [hasViable_cons] at h
    rw [List.cons_append, hasViable_cons]
    rcases h with ⟨hc, htc⟩ | h
    · left
      refine ⟨hc, ?_⟩
      obtain ⟨x2, t2, heq, hmem⟩ := (tailHasClose_iff rest).mp htc
      subst heq
      exact (tailHasClose_iff _).mpr ⟨x2, t2 ++ y, by simp, by simp [hmem]⟩
    · exact Or.inr (hasViable_append_left y rest h)

/-- `hasViable` is monotone along `dropTrail`. -/
theorem hasViable_dropTrail {l : List Char}
    (h : hasViable (dropTrail l) = true) : hasViable l = true := by
  rw [dropTrail_eq_append l]
  exact hasViable_append_left _ _ h

/-- `hasViable` is monotone along `trimChars`. -/
theorem hasViable_trimChars {l : List Char}
    (h : hasViable (trimChars l) = true) : hasViable l = true := by
  rw [trimChars_eq] at h
  exact hasViable_dropWhile isJsWs l (hasViable_dropTrail h)

/-- Viability in the title-cased stream implies viability in the input. -/
theorem hasViable_tcStream : ∀ (b : Bool) (l : List Char),
    hasViable (tcStream b l) = true → hasViable l = true
  | _, [], h => by cases h
  | b, c :: rest, h => by
    by_cases hc : c = ' '
    · subst hc
      rw [tcStream_cons_space, hasViable_cons] at h
      rw [hasViable_cons]
      rcases h with ⟨h0, _⟩ | h0
      · cases h0
      · exact Or.inr (hasViable_tcStream true rest h0)
    · simp only [tcStream, if_neg hc] at h
      rw [hasViable_cons] at h
      rw [hasViable_cons]
      rcases h with ⟨h0, htc⟩ | h0
      · left
        constructor
        · cases b with
          | true => exact jsToUpperChar_eq_open (by simpa using h0)
          | false => exact jsToLowerChar_eq_open (by simpa using h0)
        · obtain ⟨x2, t2, heq, hmem⟩ := (tailHasClose_iff _).mp htc
          cases hrest : rest with
          | nil => rw [hrest] at heq; cases heq
          | cons d r2 =>
            rw [hrest] at heq
            by_cases hd : d = ' '
            · subst hd
              rw [tcStream_cons_space] at heq
              have ht2 : t2 = tcStream true r2 := by
                injection heq with h1 h2
                exact h2.symm
              rw [ht2] at hmem
              exact (tailHasClose_iff _).mpr
                ⟨' ', r2, rfl, close_mem_of_mem_tcStream true r2 hmem⟩
            · simp only [tcStream, if_neg hd] at heq
              have ht2 : t2 = tcStream false r2 := by
                injection heq with h1 h2
                exact h2.symm
              rw [ht2] at hmem
              exact (tailHasClose_iff _).mpr
                ⟨d, r2, rfl, close_mem_of_mem_tcStream false r2 hmem⟩
      · exact Or.inr (hasViable_tcStream false rest h0)

/-- A close paren after the head of a collapsed list was already after
the head. -/
theorem tailHasClose_collapseWs : ∀ m : List Char,
    tailHasClose (collapseWs m) = true → tailHasClose m = true
  | [], h => by cases h
  | [c], h => by
    by_cases hc : isJsWs c = true <;>
      simp only [collapseWs, hc, if_pos, if_neg, if_true, if_false] at h <;>
      simp [tailHasClose] at h
  | c :: d :: rest, h => by
    by_cases hc : isJsWs c = true
    · by_cases hd : isJsWs d = true
      · simp only [collapseWs, if_pos hc, if_pos hd] at h
        have := tailHasClose_collapseWs (d :: rest) h
        obtain ⟨x2, t2, heq, hmem⟩ := (tailHasClose_iff _).mp this
        cases heq
        exact (tailHasClose_iff _).mpr
          ⟨c, d :: rest, rfl, List.mem_cons_of_mem _ hmem⟩
      · simp only [collapseWs, if_pos hc, if_neg hd] at h
        -- h : tailHasClose (' ' :: collapseWs (d :: rest)) = true
        have hmem : ')' ∈ collapseWs (d :: rest) := by
          obtain ⟨x2, t2, heq, hm⟩ := (tailHasClose_iff _).mp h
          injection heq with h1 h2
          rw [h2]
          exact hm
        rcases mem_collapseWs (d :: rest) ')' hmem with h0 | ⟨h0, _⟩
        · cases h0
        · exact (tailHasClose_iff _).mpr ⟨c, d :: rest, rfl, h0⟩
    · have hc2 : isJsWs c = false := by simpa using hc
      rw [collapseWs_cons_of_not_ws hc2] at h
      have hmem : ')' ∈ collapseWs (d :: rest) := by
        obtain ⟨x2, t2, heq, hm⟩ := (tailHasClose_iff _).mp h
        injection heq with h1 h2
        rw [h2]
        exact hm
      rcases mem_collapseWs (d :: rest) ')' hmem with h0 | ⟨h0, _⟩
      · cases h0
      · exact (tailHasClose_iff _).mpr ⟨c, d :: rest, rfl, h0⟩

/-- Viability survives collapsing backwards. -/
theorem hasViable_collapseWs : ∀ m : List Char,
    hasViable (collapseWs m) = true → hasViable m = true
  | [], h => by cases h
  | [c], h => by
    by_cases hc : isJsWs c = true <;>
      simp only [collapseWs, hc, if_pos, if_neg, if_true, if_false] at h <;>
      simp [hasViable, tailHasClose] at h
  | c :: d :: rest, h => by
    rw [hasViable_cons]
    by_cases hc : isJsWs c = true
    · by_cases hd : isJsWs d = true
      · simp only [collapseWs, if_pos hc, if_pos hd] at h
        exact Or.inr (hasViable_collapseWs (d :: rest) h)
      · simp only [collapseWs, if_pos hc, if_neg hd] at h
        rw [hasViable_cons] at h
        rcases h with ⟨h0, _⟩ | h0
        · cases h0
        · exact Or.inr (hasViable_collapseWs (d :: rest) h0)
    · have hc2 : isJsWs c = false := by simpa using hc
      rw [collapseWs_cons_of_not_ws hc2] at h
      rw [hasViable_cons] at h
      rcases h with ⟨h0, htc⟩ | h0
      · exact Or.inl ⟨h0, tailHasClose_collapseWs (d :: rest) htc⟩
      · exact Or.inr (hasViable_collapseWs (d :: rest) h0)

/-- A recorded last-close index points at a `)` in the list. -/
theorem close_mem_of_lastCloseIdx : ∀ (l : List Char) (k : Nat),
    lastCloseIdx l = some k → ')' ∈ l
  | [], k, h => by cases h
  | c :: rest, k, h => by
    simp only [lastCloseIdx] at h
    cases hr : lastCloseIdx rest with
    | some k2 =>
      exact List.mem_cons_of_mem c (close_mem_of_lastCloseIdx rest k2 hr)
    | none =>
      rw [hr] at h
      by_cases hc : c = ')'
      · rw [hc]
        exact List.mem_cons_self _ _
      · rw [if_neg hc] at h
        cases h

/-- A `)` in the list yields a last-close index. -/
theorem lastCloseIdx_isSome : ∀ l : List Char, ')' ∈ l →
    ∃ k, lastCloseIdx l = some k
  | [], h => by cases h
  | c :: rest, h => by
    simp only [lastCloseIdx]
    cases hr : lastCloseIdx rest with
    | some k2 => exact ⟨k2 + 1, rfl⟩
    | none =>
      rcases List.mem_cons.mp h with h0 | h0
      · exact ⟨0, by rw [if_pos h0.symm]⟩
      · obtain ⟨k, hk⟩ := lastCloseIdx_isSome rest h0
        rw [hk] at hr
        cases hr

/-- A `)` after the head yields a last-close index of at least 1. -/
theorem lastCloseIdx_ge_one {c : Char} {rest : List Char} (h : ')' ∈ rest) :
    ∃ k, lastCloseIdx (c :: rest) = some k ∧ 1 ≤ k := by
  obtain ⟨k, hk⟩ := lastCloseIdx_isSome rest h
  exact ⟨k + 1, by simp [lastCloseIdx, hk], Nat.succ_le_succ (Nat.zero_le k)⟩

/-- A line terminator is whitespace. -/
theorem ws_of_isLineTerm {c : Char} (h : isLineTerm c = true) : isJsWs c = true := by
  unfold isLineTerm at h
  simp only [Bool.or_eq_true, decide_eq_true_eq] at h
  rcases h with ((h | h) | h) | h <;> subst h <;> decide

/-- Space-only lists contain no line terminators. -/
theorem not_lineTerm_of_spaceOnly {l : List Char} (hP : spaceOnly l) :
    ∀ c ∈ l, (!isLineTerm c) = true := by
  intro c hc
  cases hlt : isLineTerm c with
  | false => rfl
  | true =>
    have hws := ws_of_isLineTerm hlt
    have hcs := hP c hc hws
    subst hcs
    cases hlt

/-- A last-close index of at least 1 puts a `)` after the head. -/
theorem close_mem_tail_of_lastCloseIdx : ∀ (x : List Char) (k : Nat),
    lastCloseIdx x = some k → 1 ≤ k → ')' ∈ x.tail
  | [], k, h, _ => by cases h
  | c :: rest2, k, h, hk => by
    simp only [lastCloseIdx] at h
    cases hr : lastCloseIdx rest2 with
    | some k2 =>
      exact close_mem_of_lastCloseIdx rest2 k2 hr
    | none =>
      rw [hr] at h
      by_cases hc : c = ')'
      · rw [if_pos hc] at h
        injection h with h1
        omega
      · rw [if_neg hc] at h
        cases h

/-- If no position is viable, the regex cannot match at the head. -/
theorem tryMatchAt_none_of_not_viable {l : List Char}
    (h : hasViable l = false) : tryMatchAt l = none := by
  unfold tryMatchAt
  split
  · rename_i rest heq
    dsimp only
    split
    · rename_i k hk
      rw [if_neg]
      intro h1k
      have hmem : ')' ∈ (rest.takeWhile fun c => !isLineTerm c).tail :=
        close_mem_tail_of_lastCloseIdx _ k hk h1k
      have hmem2 : ')' ∈ rest.tail := by
        obtain ⟨leftover, hpre⟩ :=
          List.takeWhile_prefix (l := rest) (fun c => !isLineTerm c)
        cases htw : rest.takeWhile (fun c => !isLineTerm c) with
        | nil =>
          rw [htw] at hmem
          cases hmem
        | cons r0 rt =>
          rw [htw] at hmem hpre
          rw [← hpre]
          simp only [List.cons_append, List.tail_cons]
          exact List.mem_append_left _ (by simpa using hmem)
      have hviable : hasViable l = true := by
        apply hasViable_dropWhile isJsWs
        rw [heq, hasViable_cons]
        left
        refine ⟨rfl, ?_⟩
        cases hrest : rest with
        | nil =>
          rw [hrest] at hmem2
          cases hmem2
        | cons d r2 =>
          rw [hrest] at hmem2
          exact (tailHasClose_iff _).mpr ⟨d, r2, rfl, by simpa using hmem2⟩
      rw [hviable] at h
      cases h
    · rfl
  · rfl

/-- A successful head match leaves a strictly shorter suffix. -/
theorem tryMatchAt_suffix_lt {l rem : List Char}
    (h : tryMatchAt l = some rem) : rem <:+ l ∧ rem.length < l.length := by
  unfold tryMatchAt at h
  split at h
  · rename_i rest heq
    dsimp only at h
    split at h
    · rename_i k hk
      split at h
      · injection h with h1
        subst h1
        have hsuffix : (List.dropWhile isJsWs (List.drop (k + 1) rest)) <:+ rest :=
          (List.dropWhile_suffix isJsWs).trans (List.drop_suffix (k + 1) rest)
        have hsuffix2 : rest <:+ l := by
          have h1 : rest <:+ '(' :: rest := ⟨['('], rfl⟩
          rw [← heq] at h1
          exact h1.trans (List.dropWhile_suffix isJsWs)
        constructor
        · exact hsuffix.trans hsuffix2
        · have hlen1 : (List.dropWhile isJsWs (List.drop (k + 1) rest)).length ≤
              rest.length := hsuffix.length_le
          have hlen2 : ('(' :: rest).length ≤ l.length := by
            rw [← heq]
            exact (List.dropWhile_suffix isJsWs).length_le
          simp only [List.length_cons] at hlen2
          omega
      · cases h
    · cases h
  · cases h

/-- The output of the paren stripping is a sublist of its input. -/
theorem stripParensAux_sublist : ∀ (fuel : Nat) (l : List Char),
    (stripParensAux fuel l).Sublist l
  | 0, l => List.Sublist.refl l
  | fuel + 1, l => by
    simp only [stripParensAux]
    cases hm : tryMatchAt l with
    | some rem =>
      obtain ⟨hsuf, _⟩ := tryMatchAt_suffix_lt hm
      exact (stripParensAux_sublist fuel rem).trans hsuf.sublist
    | none =>
      cases l with
      | nil => exact List.Sublist.refl []
      | cons c cs =>
        exact List.cons_sublist_cons.mpr (stripParensAux_sublist fuel cs)

/-- A cons sublist gives a tail sublist of the tail. -/
theorem tail_sublist_of_cons_sublist : ∀ {a : Char} {b m : List Char},
    (a :: b).Sublist m → b.Sublist m.tail := by
  intro a b m h
  cases m with
  | nil => cases h
  | cons x m2 =>
    cases h with
    | cons _ h2 =>
      exact (List.sublist_cons_self a b).trans h2
    | cons₂ _ h2 =>
      exact h2

/-- Core invariant: on a space-only input, the global paren strip leaves
no viable match position. -/
theorem strip_noViable : ∀ (fuel : Nat) (l : List Char), l.length ≤ fuel →
    spaceOnly l → hasViable (stripParensAux fuel l) = false
  | 0, l, hlen, _ => by
    have : l = [] := List.eq_nil_of_length_eq_zero (Nat.le_zero.mp hlen)
    subst this
    rfl
  | fuel + 1, l, hlen, hP => by
    simp only [stripParensAux]
    cases hm : tryMatchAt l with
    | some rem =>
      obtain ⟨hsuf, hlt⟩ := tryMatchAt_suffix_lt hm
      exact strip_noViable fuel rem (by omega)
        (spaceOnly_of_subset (fun x hx => List.Sublist.mem hx hsuf.sublist) hP)
    | none =>
      cases l with
      | nil => rfl
      | cons c cs =>
        have hcs : hasViable (stripParensAux fuel cs) = false :=
          strip_noViable fuel cs (by simpa using Nat.le_of_succ_le_succ hlen)
            (spaceOnly_tail hP)
        cases hv : hasViable (c :: stripParensAux fuel cs) with
        | false => rfl
        | true =>
          exfalso
          rw [hasViable_cons] at hv
          rcases hv with ⟨hop, htc⟩ | hrec
          · subst hop
            obtain ⟨x2, t2, heq, hmem⟩ := (tailHasClose_iff _).mp htc
            have hsub : (x2 :: t2).Sublist cs := heq ▸ stripParensAux_sublist fuel cs
            have hmem2 : ')' ∈ cs.tail :=
              List.Sublist.mem hmem (tail_sublist_of_cons_sublist hsub)
            cases hcase : cs with
            | nil =>
              rw [hcase] at hmem2
              cases hmem2
            | cons d r2 =>
              rw [hcase] at hmem2
              simp only [List.tail_cons] at hmem2
              -- the match at the head would have succeeded: contradiction
              obtain ⟨k, hk, h1k⟩ := lastCloseIdx_ge_one (c := d) hmem2
              have hdw : List.dropWhile isJsWs ('(' :: cs) = '(' :: cs := by
                rw [List.dropWhile_cons, if_neg (by decide)]
              have hrun : cs.takeWhile (fun x => !isLineTerm x) = cs :=
                List.takeWhile_eq_self_iff.mpr
                  (not_lineTerm_of_spaceOnly (spaceOnly_tail hP))
              have hopen : tryMatchAt ('(' :: cs) =
                  (match lastCloseIdx (cs.takeWhile (fun x => !isLineTerm x)) with
                   | some k => if 1 ≤ k then
                       some ((cs.drop (k + 1)).dropWhile isJsWs)
                     else none
                   | none => none) := by
                unfold tryMatchAt
                rw [hdw]
                rfl
              rw [hopen, hrun, hcase, hk] at hm
              dsimp only at hm
              rw [if_pos h1k] at hm
              cases hm
          · rw [hrec] at hcs
            cases hcs

/-- Without a viable position the global replace is the identity. -/
theorem stripParensAux_id : ∀ (fuel : Nat) (l : List Char),
    hasViable l = false → stripParensAux fuel l = l
  | 0, _, _ => rfl
  | fuel + 1, l, h => by
    simp only [stripParensAux]
    rw [tryMatchAt_none_of_not_viable h]
    cases l with
    | nil => rfl
    | cons c cs =>
      have hcs : hasViable cs = false := by
        cases hv : hasViable cs with
        | false => rfl
        | true =>
          have h2 : hasViable (c :: cs) = true :=
            (hasViable_cons c cs).mpr (Or.inr hv)
          rw [h] at h2
          cases h2
      show c :: stripParensAux fuel cs = c :: cs
      rw [stripParensAux_id fuel cs hcs]

/-- The lookupName pipeline with its middle step in stream form. -/
theorem deriveList_eq (s : List Char) :
    deriveList s =
      trimChars (collapseWs (trimChars (tcStream true (trimChars (stripParens s))))) := by
  unfold deriveList
  rw [(tc_factor (trimChars (stripParens s))).1]

/-- On a space-only input the lookupName pipeline output is already
trimmed and is a fixed point of the pipeline. -/
theorem deriveList_fixed (s : List Char) (hP : spaceOnly s) :
    trimChars (deriveList s) = deriveList s ∧
    deriveList (deriveList s) = deriveList s := by
  have hP1 : spaceOnly (stripParens s) :=
    spaceOnly_of_subset
      (fun c hc => List.Sublist.mem hc (stripParensAux_sublist s.length s)) hP
  have hP2 : spaceOnly (trimChars (stripParens s)) :=
    spaceOnly_of_subset (fun c hc => mem_of_mem_trimChars hc) hP1
  have hP3 : spaceOnly (tcStream true (trimChars (stripParens s))) :=
    spaceOnly_tcStream true _ hP2
  have hP4 : spaceOnly (trimChars (tcStream true (trimChars (stripParens s)))) :=
    spaceOnly_of_subset (fun c hc => mem_of_mem_trimChars hc) hP3
  have hQL : deriveList s =
      trimChars (collapseWs (trimChars (tcStream true (trimChars (stripParens s))))) :=
    deriveList_eq s
  have htrim : trimChars (deriveList s) = deriveList s := by
    rw [hQL, trimChars_trimChars]
  have hPL : spaceOnly (deriveList s) := by
    rw [hQL]
    exact spaceOnly_of_subset (fun c hc => mem_of_mem_trimChars hc)
      (spaceOnly_collapseWs _)
  have hv0 : hasViable (stripParens s) = false := strip_noViable s.length s le_rfl hP
  have hv1 : hasViable (trimChars (stripParens s)) = false := by
    cases hv : hasViable (trimChars (stripParens s)) with
    | false => rfl
    | true =>
      have h2 := hasViable_trimChars hv
      rw [hv0] at h2
      cases h2
  have hv2 : hasViable (tcStream true (trimChars (stripParens s))) = false := by
    cases hv : hasViable (tcStream true (trimChars (stripParens s))) with
    | false => rfl
    | true =>
      have h2 := hasViable_tcStream true _ hv
      rw [hv1] at h2
      cases h2
  have hv3 : hasViable (trimChars (tcStream true (trimChars (stripParens s)))) = false := by
    cases hv : hasViable (trimChars (tcStream true (trimChars (stripParens s)))) with
    | false => rfl
    | true =>
      have h2 := hasViable_trimChars hv
      rw [hv2] at h2
      cases h2
  have hv4 : hasViable (collapseWs (trimChars (tcStream true (trimChars (stripParens s)))))
      = false := by
    cases hv : hasViable (collapseWs (trimChars (tcStream true (trimChars (stripParens s)))))
      with
    | false => rfl
    | true =>
      have h2 := hasViable_collapseWs _ hv
      rw [hv3] at h2
      cases h2
  have hvL : hasViable (deriveList s) = false := by
    rw [hQL]
    cases hv : hasViable
        (trimChars (collapseWs (trimChars (tcStream true (trimChars (stripParens s))))))
      with
    | false => rfl
    | true =>
      have h2 := hasViable_trimChars hv
      rw [hv4] at h2
      cases h2
  have hstrip : stripParens (deriveList s) = deriveList s :=
    stripParensAux_id (deriveList s).length (deriveList s) hvL
  have htc1 : tcStream true (trimChars (tcStream true (trimChars (stripParens s)))) =
      trimChars (tcStream true (trimChars (stripParens s))) :=
    tcStream_fixed_trimChars hP3 (tcStream_idem true _)
  have htc2 : tcStream true
      (collapseWs (trimChars (tcStream true (trimChars (stripParens s))))) =
      collapseWs (trimChars (tcStream true (trimChars (stripParens s)))) :=
    tcStream_fixed_collapseWs _ true hP4 htc1
  have htcL : tcStream true (deriveList s) = deriveList s := by
    rw [hQL]
    exact tcStream_fixed_trimChars (spaceOnly_collapseWs _) htc2
  have hnoadj : noAdjWs (deriveList s) := by
    rw [hQL]
    exact noAdjWs_trimChars (noAdjWs_collapseWs _)
  have hcoll : collapseWs (deriveList s) = deriveList s :=
    collapseWs_eq_self (deriveList s) hPL hnoadj
  refine ⟨htrim, ?_⟩
  rw [deriveList_eq (deriveList s)]
  simp only [hstrip, htrim, htcL, hcoll]

/-- Inverting a successful normalization. -/
theorem normalizeCityData_some_inv {data : RawCityRecord} {n : NormalizedCity}
    (h : normalizeCityData data = some n) :
    ∃ nm ct p v, data.name = some nm ∧ data.country = some ct ∧
      data.pollution = some p ∧ jsTrim nm ≠ "" ∧ jsTrim ct ≠ "" ∧
      parseFloatJs p = some v ∧ jsNumIsNeg v = false ∧
      ¬(deriveLookupName (jsTrim nm) = "" ∨
        isAllDigits (deriveLookupName (jsTrim nm)) = true ∨
        (deriveLookupName (jsTrim nm)).length ≤ 1) ∧
      n = ⟨jsTrim nm, deriveLookupName (jsTrim nm), jsTrim ct, v⟩ := by
  cases hname : data.name with
  | none => simp [normalizeCityData, hname] at h
  | some nm =>
    by_cases hnb : jsTrim nm = ""
    · simp [normalizeCityData, hname, hnb] at h
    · cases hct : data.country with
      | none => simp [normalizeCityData, hname, hnb, hct] at h
      | some ct =>
        by_cases hcb : jsTrim ct = ""
        · simp [normalizeCityData, hname, hnb, hct, hcb] at h
        · cases hp : data.pollution with
          | none => simp [normalizeCityData, hname, hnb, hct, hcb, hp] at h
          | some p =>
            cases hv : parseFloatJs p with
            | none => simp [normalizeCityData, hname, hnb, hct, hcb, hp, hv] at h
            | some v =>
              by_cases hneg : jsNumIsNeg v = true
              · simp [normalizeCityData, hname, hnb, hct, hcb, hp, hv, hneg] at h
              · by_cases hlk : deriveLookupName (jsTrim nm) = "" ∨
                    isAllDigits (deriveLookupName (jsTrim nm)) = true ∨
                    (deriveLookupName (jsTrim nm)).length ≤ 1
                · simp [normalizeCityData, hname, hnb, hct, hcb, hp, hv, hneg,
                    hlk] at h
                · simp [normalizeCityData, hname, hnb, hct, hcb, hp, hv,
                    hneg, hlk] at h
                  exact ⟨nm, ct, p, v, rfl, rfl, rfl, hnb, hcb, hv,
                    by simpa using hneg, hlk, h.symm⟩

/-- A record whose fields pass all checks is accepted with the expected
fields. -/
theorem normalizeCityData_accepts (nm ct p : String) (v : JsNum)
    (h1 : jsTrim nm ≠ "") (h2 : jsTrim ct ≠ "") (h3 : parseFloatJs p = some v)
    (h4 : jsNumIsNeg v = false)
    (h5 : ¬(deriveLookupName (jsTrim nm) = "" ∨
      isAllDigits (deriveLookupName (jsTrim nm)) = true ∨
      (deriveLookupName (jsTrim nm)).length ≤ 1)) :
    normalizeCityData ⟨some nm, some ct, some p⟩ =
      some ⟨jsTrim nm, deriveLookupName (jsTrim nm), jsTrim ct, v⟩ := by
  simp [normalizeCityData, h1, h2, h3, h4, h5]

/-- Extensionality for the string wrapper. -/
theorem stringDataExt {a b : String} (h : a.data = b.data) : a = b := by
  cases a
  cases b
  cases h
  rfl

/-- The lookupName derivation, viewed on character data. -/
theorem deriveLookupName_data (s : String) :
    (deriveLookupName s).data = deriveList s.data := by
  unfold deriveLookupName deriveList
  rfl

/-- Trimming, viewed on character data. -/
theorem jsTrim_data (s : String) : (jsTrim s).data = trimChars s.data := rfl

/-- C4 counterexample: lookupName derivation is not idempotent.  The
accepted raw record `{name: "ab\ncd"}` yields lookupName `"Ab cd"`
(the newline collapses to a space after title casing), but normalizing a
record named `"Ab cd"` yields `"Ab Cd"` — the space now splits two words,
so the second word is re-title-cased. -/
theorem c4_idempotence_counterexample :
    normalizeCityData ⟨some "ab\ncd", some "PL", some "1"⟩ =
      some ⟨"ab\ncd", "Ab cd", "PL", .val (mkRat 1 1)⟩ ∧
    normalizeCityData ⟨some "Ab cd", some "PL", some "1"⟩ =
      some ⟨"Ab cd", "Ab Cd", "PL", .val (mkRat 1 1)⟩ ∧
    ("Ab Cd" : String) ≠ "Ab cd" := by
  refine ⟨by decide, by decide, by decide⟩

/-- C4 (amended): for every raw record that normalization accepts and
whose name contains no whitespace characters other than plain spaces,
re-normalizing a raw record whose name is the produced lookupName (same
country and pollution) is also accepted and yields the identical
lookupName. -/
theorem c4_lookup_idempotent (data : RawCityRecord) (nm : String)
    (n : NormalizedCity) (hname : data.name = some nm)
    (hsp : spaceOnly nm.data) (hn : normalizeCityData data = some n) :
    normalizeCityData ⟨some n.lookupName, data.country, data.pollution⟩ =
      some ⟨n.lookupName, n.lookupName, n.country, n.pollution⟩ := by
  obtain ⟨nm2, ct, p, v, hname2, hct, hp, hnb, hcb, hv, hneg, hlk, hnEq⟩ :=
    normalizeCityData_some_inv hn
  rw [hname] at hname2
  injection hname2 with hnm2
  subst hnm2
  have hPs : spaceOnly (jsTrim nm).data :=
    spaceOnly_of_subset (fun c hc => mem_of_mem_trimChars hc) hsp
  obtain ⟨htrimL, hidemL⟩ := deriveList_fixed (jsTrim nm).data hPs
  have htrimLS : jsTrim (deriveLookupName (jsTrim nm)) = deriveLookupName (jsTrim nm) := by
    apply stringDataExt
    rw [jsTrim_data (deriveLookupName (jsTrim nm)), deriveLookupName_data (jsTrim nm)]
    exact htrimL
  have hderiveLS : deriveLookupName (deriveLookupName (jsTrim nm)) =
      deriveLookupName (jsTrim nm) := by
    apply stringDataExt
    simp only [deriveLookupName_data]
    exact hidemL
  have hLne : jsTrim (deriveLookupName (jsTrim nm)) ≠ "" := by
    rw [htrimLS]
    intro h0
    exact hlk (Or.inl h0)
  have h5L : ¬(deriveLookupName (jsTrim (deriveLookupName (jsTrim nm))) = "" ∨
      isAllDigits (deriveLookupName (jsTrim (deriveLookupName (jsTrim nm)))) = true ∨
      (deriveLookupName (jsTrim (deriveLookupName (jsTrim nm)))).length ≤ 1) := by
    rw [htrimLS, hderiveLS]
    exact hlk
  have happly := normalizeCityData_accepts (deriveLookupName (jsTrim nm)) ct p v
    hLne hcb hv hneg h5L
  rw [htrimLS, hderiveLS] at happly
  rw [hnEq, hct, hp]
  exact happly

/-- Witness for C4 (amended) at the spec's end-to-end example: the
accepted record `{name: "wArSAW (Capital)"}` has a space-only name,
produces lookupName `"Warsaw"`, and re-normalizing `"Warsaw"` is accepted
with the same lookupName. -/
theorem c4_lookup_idempotent_witness :
    normalizeCityData ⟨some "Warsaw", some "PL", some "42.5"⟩ =
      some ⟨"Warsaw", "Warsaw", "PL", .val (mkRat 85 2)⟩ :=
  c4_lookup_idempotent ⟨some "wArSAW (Capital)", some "PL", some "42.5"⟩
    "wArSAW (Capital)" ⟨"wArSAW (Capital)", "Warsaw", "PL", .val (mkRat 85 2)⟩
    rfl (by decide) (by decide)

end UrbanAir
